import Mathlib

set_option maxHeartbeats 1000000
set_option maxRecDepth 8192

/-!
Shallow embedding of the Hex alpha-beta engine (`Hex_utils.py`, `Hex_ai.py`).

The Python 2-d board `board[r][c]` is modelled as a flat row-major list
indexed by the linear cell index `cell = r * SIZE + c`; this is the very
indexing the source uses throughout (`divmod(cell, SIZE)` and
`r * SIZE + c`).  In-place mutation is modelled by explicit state passing:
every function that mutates the board (or the transposition cache)
returns the board (and cache) it leaves behind.

The two graph-traversal loops (`check_winner`'s stack DFS and
`shortest_path_length`'s BFS) run on a fuel parameter so that they are
structurally recursive and hence evaluate by kernel reduction; the fuel
supplied by their wrappers strictly dominates the loop measure
`7 * (unvisited cells) + (stack length)` (resp. `unvisited + queue`),
which never exceeds `7 * 16 + 4` (resp. `16`), so the fuel never runs
out on the wrappers' calls.  For `check_winner` this is proved: the
characterisation theorem for claim C7 describes the fuelled loop exactly.
-/

/-- Board size (`SIZE = 4` in Hex_utils.py). -/
def SIZE : Nat := 4

/-- Flat row-major board: entry `cell = r * SIZE + c` holds `board[r][c]`.
Cell values are `0` (empty), `1` (player 1), `-1` (player -1). -/
abbrev Board := List Int

/-- Reading `board[r][c]` at `cell = r * SIZE + c`. -/
def bget (board : Board) (cell : Nat) : Int := board.getD cell 0

/-- Writing `board[r][c] = v` at `cell = r * SIZE + c`. -/
def bset (board : Board) (cell : Nat) (v : Int) : Board := List.set board cell v

/-- In-bounds hex-adjacent cells of `cell` under the fixed offset set
`{(-1,0),(1,0),(0,-1),(0,1),(-1,1),(1,-1)}` (`get_neighbors` in Hex_utils.py). -/
def get_neighbors (cell : Nat) : List Nat :=
  let row : Int := (cell / SIZE : Nat)
  let col : Int := (cell % SIZE : Nat)
  let directions : List (Int × Int) := [(-1, 0), (1, 0), (0, -1), (0, 1), (-1, 1), (1, -1)]
  directions.filterMap (fun d =>
    let nr := row + d.1
    let nc := col + d.2
    if 0 ≤ nr ∧ nr < (SIZE : Int) ∧ 0 ≤ nc ∧ nc < (SIZE : Int) then
      some (nr * SIZE + nc).toNat
    else none)

/-- Stone value searched for by `check_winner` / `shortest_path_length`:
`value = 1 if player == 1 else -1`. -/
def winner_value (player : Int) : Int := if player = 1 then 1 else -1

/-- Start-edge cells already owned by `player`, as enumerated by
`check_winner` (row 0 for player 1, column 0 for player -1). -/
def winner_start (board : Board) (player : Int) : List Nat :=
  if player = 1 then
    (List.range SIZE).filter (fun i => bget board i = winner_value player)
  else
    ((List.range SIZE).map (fun r => r * SIZE)).filter
      (fun i => bget board i = winner_value player)

/-- Goal-edge cells already owned by `player`, as enumerated by
`check_winner` (row `SIZE-1` for player 1, column `SIZE-1` for player -1). -/
def winner_goal (board : Board) (player : Int) : List Nat :=
  if player = 1 then
    ((List.range SIZE).map (fun j => SIZE * (SIZE - 1) + j)).filter
      (fun i => bget board i = winner_value player)
  else
    ((List.range SIZE).map (fun j => SIZE - 1 + j * SIZE)).filter
      (fun i => bget board i = winner_value player)

/-- Fuel for the `check_winner` DFS loop: strictly more than the loop
measure `7 * |unvisited| + |stack|  ≤  7 * 16 + 4` of any reachable state. -/
def DFS_FUEL : Nat := 7 * (SIZE * SIZE) + SIZE + 1

/-- The stack-based DFS loop of `check_winner`.  The Python stack pops from
the end of the list, so the stack is kept top-at-head here; the neighbors
appended by one expansion are therefore pushed in reverse order.  A popped
cell is first tested against the goal list, then expanded once (marked
visited); owned neighbors are pushed unconditionally, as in the source. -/
def winnerLoop (board : Board) (value : Int) (goal : List Nat) :
    Nat → Finset Nat → List Nat → Bool
  | 0, _, _ => false
  | _ + 1, _, [] => false
  | fuel + 1, visited, current :: rest =>
    if current ∈ goal then true
    else if current ∈ visited then winnerLoop board value goal fuel visited rest
    else
      winnerLoop board value goal fuel (insert current visited)
        ((((get_neighbors current).filter (fun n => bget board n = value)).reverse) ++ rest)

/-- Win detection (`check_winner` in Hex_utils.py): DFS from the owned
start-edge cells through cells owned by `player`, succeeding on reaching
an owned goal-edge cell.  The initial stack is the start list as pushed by
`stack.extend(start)` (popped from the end, hence reversed here). -/
def check_winner (board : Board) (player : Int) : Bool :=
  winnerLoop board (winner_value player) (winner_goal board player) DFS_FUEL ∅
    ((winner_start board player).reverse)

/-- Fuel for the BFS in `shortest_path_length`: strictly more than the
measure `|unvisited| + |queue| ≤ 16` of any reachable state. -/
def BFS_FUEL : Nat := SIZE * SIZE + SIZE + 1

/-- One dequeue step's neighbor scan in `shortest_path_length`: each
neighbor owned by the target value and not yet visited is marked visited
and enqueued (at the back) with distance `dist + 1`; the set and queue are
threaded through the scan exactly as the Python for-loop mutates them. -/
def bfsExpand (board : Board) (tv : Int) (dist1 : Nat)
    (vq : Finset Nat × List (Nat × Nat)) (nbrs : List Nat) :
    Finset Nat × List (Nat × Nat) :=
  nbrs.foldl (fun vq nxt =>
    if bget board nxt = tv ∧ nxt ∉ vq.1 then
      (insert nxt vq.1, vq.2 ++ [(nxt, dist1)])
    else vq) vq

/-- The BFS loop of `shortest_path_length`: dequeue from the front,
return the distance as soon as a dequeued cell satisfies the goal test. -/
def bfsLoop (board : Board) (tv : Int) (goalb : Nat → Bool) :
    Nat → Finset Nat → List (Nat × Nat) → Option Nat
  | 0, _, _ => none
  | _ + 1, _, [] => none
  | fuel + 1, visited, (current, dist) :: rest =>
    if goalb current then some dist
    else
      let vq := bfsExpand board tv (dist + 1) (visited, rest) (get_neighbors current)
      bfsLoop board tv goalb fuel vq.1 vq.2

/-- Start cells of the BFS in `shortest_path_length` (owned cells of row 0
for player 1, of column 0 otherwise). -/
def sp_starts (board : Board) (player : Int) : List Nat :=
  if player = 1 then
    (List.range SIZE).filter (fun c => bget board c = winner_value player)
  else
    ((List.range SIZE).map (fun r => r * SIZE)).filter
      (fun s => bget board s = winner_value player)

/-- Goal test of the BFS in `shortest_path_length` (bottom row for
player 1, rightmost column otherwise). -/
def sp_goal (player : Int) : Nat → Bool :=
  if player = 1 then (fun cell => cell / SIZE == SIZE - 1)
  else (fun cell => cell % SIZE == SIZE - 1)

/-- Shortest connection distance (`shortest_path_length` in Hex_ai.py):
BFS over cells owned by `player` from the owned start-edge cells; returns
the distance of the first dequeued goal cell, `none` if no connection. -/
def shortest_path_length (board : Board) (player : Int) : Option Nat :=
  let tv := winner_value player
  let starts := sp_starts board player
  bfsLoop board tv (sp_goal player) BFS_FUEL
    (starts.foldl (fun v s => insert s v) ∅) (starts.map (fun s => (s, 0)))

/-- Heuristic score (`evaluate_board` in Hex_ai.py), larger is better for
`player`: sequential tests on the two shortest-path distances, then
`sp_opp - sp_self`. -/
def evaluate_board (board : Board) (player : Int) : Int :=
  let sp_self := shortest_path_length board player
  let sp_opp := shortest_path_length board (-player)
  if sp_self = none ∧ sp_opp = none then 0
  else if sp_self = none then -9999
  else if sp_opp = none then 9999
  else ((sp_opp.getD 0 : Int) - (sp_self.getD 0 : Int))

/-- Zobrist hash (`compute_zobrist_hash` in Hex_ai.py): scan the 16 cells
and fold in the table entry of each occupied cell with exclusive-or.  The
table itself (`ZOBRIST_RANDOMS`, built by `init_zobrist` from a seeded
Mersenne Twister) is an opaque parameter `zob`: `(zob c).1` is the entry
for player 1 on cell `c`, `(zob c).2` the entry for player -1. -/
def compute_zobrist_hash (zob : Nat → Nat × Nat) (board : Board) : Nat :=
  (List.range (SIZE * SIZE)).foldl (fun h cell_id =>
    let val := bget board cell_id
    if val = 1 then h ^^^ (zob cell_id).1
    else if val = -1 then h ^^^ (zob cell_id).2
    else h) 0

/-- Legality test (`is_valid_action` in Hex_utils.py): the cell is empty. -/
def is_valid_action (board : Board) (action : Nat) : Bool :=
  bget board action == 0

/-- Move application (`apply_action` in Hex_utils.py).  The Python version
raises `ValueError` on an occupied cell, before any write; in this pure
embedding the exception is `none`, and since the error path returns before
the single write, the caller's board is unchanged exactly when `none` is
returned (atomicity is by construction). -/
def apply_action (board : Board) (action : Nat) (player : Int) : Option Board :=
  if ¬ (is_valid_action board action = true) then none
  else some (bset board action player)

/-- Empty-cell enumeration, as done inline in `negamax`
(`valid_actions = [cell for cell in range(SIZE*SIZE) if board cell empty]`). -/
def valid_actions (board : Board) : List Nat :=
  (List.range (SIZE * SIZE)).filter (fun cid => bget board cid = 0)

/-- Tentative scoring pass of `order_moves`: for each action, place the
stone, evaluate, remove the stone; the board is threaded through the
sequence of writes exactly as the Python loop mutates it. -/
def score_actions (board : Board) (player : Int) : List Nat → List (Nat × Int) × Board
  | [] => ([], board)
  | action :: rest =>
    let b1 := bset board action player
    let score := evaluate_board b1 player
    let b2 := bset b1 action 0
    let (tail, bfin) := score_actions b2 player rest
    ((action, score) :: tail, bfin)

/-- Move ordering (`order_moves` in Hex_ai.py): score each legal move by
a tentative apply / evaluate / undo, then sort by score descending
(Python's stable `sort(key=score, reverse=True)`), and keep the actions. -/
def order_moves (board : Board) (va : List Nat) (player : Int) :
    List Nat × Board :=
  let sa := score_actions board player va
  ((sa.1.insertionSort (fun x y => y.2 ≤ x.2)).map Prod.fst, sa.2)

/-- Scores as used by the search: the integers produced by the evaluator
and the terminal sentinels, together with `float('-inf')` / `float('inf')`
used for the initial `best_score` and the top-level alpha-beta window. -/
inductive XInt where
  | negInf : XInt
  | fin : Int → XInt
  | posInf : XInt
deriving DecidableEq

/-- Comparison `a <= b` on scores. -/
def XInt.ble : XInt → XInt → Bool
  | .negInf, _ => true
  | _, .posInf => true
  | .posInf, _ => false
  | .fin _, .negInf => false
  | .fin m, .fin n => decide (m ≤ n)

/-- Comparison `a < b` on scores. -/
def XInt.blt (a b : XInt) : Bool := ! XInt.ble b a

/-- Negation on scores (`-score`, with `-inf` and `inf` exchanged). -/
def XInt.negx : XInt → XInt
  | .negInf => .posInf
  | .fin n => .fin (-n)
  | .posInf => .negInf

/-- Python's `max(a, b)`: `b` if `a < b` else `a`. -/
def xmax (a b : XInt) : XInt := if XInt.blt a b then b else a

/-- Finiteness test on scores. -/
def XInt.isfin : XInt → Bool
  | .fin _ => true
  | _ => false

/-- Transposition-cache key: `(board hash, player to move, remaining depth)`. -/
abbrev CKey := Nat × Int × Nat

/-- Transposition-cache value: the `(score, best move)` pair of `negamax`. -/
abbrev CVal := XInt × Option Nat

/-- The transposition table (a Python dict), modelled as an association
list; a store is a cons, and lookup takes the most recent binding, which
coincides with dict update. -/
abbrev Cache := List (CKey × CVal)

/-- Dict lookup on the cache. -/
def cacheFind : Cache → CKey → Option CVal
  | [], _ => none
  | e :: rest, k => if e.1 = k then some e.2 else cacheFind rest k

/-- The move loop of `negamax` over the ordered actions: place the stone,
recurse through `child` (which receives the negated, swapped window and
the current cache), remove the stone, negate the returned score, track the
running best and `alpha = max(alpha, score)`, and stop on `alpha >= beta`
(the beta cutoff).  Returns `((best_score, best_move), board, cache)`. -/
def negamaxLoop (child : Board → XInt → XInt → Cache → CVal × Board × Cache)
    (player : Int) :
    List Nat → XInt → Option Nat → XInt → XInt → Board → Cache →
      CVal × Board × Cache
  | [], best_score, best_move, _, _, board, cache =>
    ((best_score, best_move), board, cache)
  | action :: rest, best_score, best_move, alpha, beta, board, cache =>
    let b1 := bset board action player
    let r := child b1 (XInt.negx beta) (XInt.negx alpha) cache
    let b2 := bset r.2.1 action 0
    let score := XInt.negx r.1.1
    let best_score' := if XInt.blt best_score score then score else best_score
    let best_move' := if XInt.blt best_score score then some action else best_move
    let alpha' := xmax alpha score
    if XInt.ble beta alpha' then ((best_score', best_move'), b2, r.2.2)
    else negamaxLoop child player rest best_score' best_move' alpha' beta b2 r.2.2

/-- The search (`negamax` in Hex_ai.py), in the order of the source:
terminal win check for the side that moved last, empty-cell enumeration,
depth-zero evaluation, transposition lookup, move ordering, the alpha-beta
loop, and the store of `(best_score, best_move)`.  The board and cache are
threaded explicitly to model in-place mutation. -/
def negamax (zob : Nat → Nat × Nat) (board : Board) (depth : Nat)
    (alpha beta : XInt) (player : Int) (cache : Cache) :
    CVal × Board × Cache :=
  if check_winner board (-player) then
    ((XInt.fin (-999999 + (depth : Int)), none), board, cache)
  else
    let va := valid_actions board
    if va = [] then ((XInt.fin 0, none), board, cache)
    else
      match depth with
      | 0 => ((XInt.fin (evaluate_board board player), none), board, cache)
      | d + 1 =>
        let board_hash := compute_zobrist_hash zob board
        match cacheFind cache (board_hash, player, d + 1) with
        | some v => (v, board, cache)
        | none =>
          let om := order_moves board va player
          let lr := negamaxLoop (fun b a bb c => negamax zob b d a bb (-player) c)
            player om.1 XInt.negInf none alpha beta om.2 cache
          (lr.1, lr.2.1, ((board_hash, player, d + 1), lr.1) :: lr.2.2)

/-- Top-level entry (`find_best_move` in Hex_ai.py) with the default
fresh cache: full-window search, returning the chosen action and (to make
the in-place mutation observable) the board as left behind by the search. -/
def find_best_move (zob : Nat → Nat × Nat) (board : Board) (player : Int)
    (max_depth : Nat) : Option Nat × Board :=
  let r := negamax zob board max_depth XInt.negInf XInt.posInf player []
  (r.1.2, r.2.1)

/-- Modelled from the spec: the full-width move loop of §8's pruning
equivalence — identical to `negamaxLoop` except that the beta-cutoff
`if alpha >= beta: break` step is never taken. -/
def negamaxLoopFW (child : Board → XInt → XInt → Cache → CVal × Board × Cache)
    (player : Int) :
    List Nat → XInt → Option Nat → XInt → XInt → Board → Cache →
      CVal × Board × Cache
  | [], best_score, best_move, _, _, board, cache =>
    ((best_score, best_move), board, cache)
  | action :: rest, best_score, best_move, alpha, beta, board, cache =>
    let b1 := bset board action player
    let r := child b1 (XInt.negx beta) (XInt.negx alpha) cache
    let b2 := bset r.2.1 action 0
    let score := XInt.negx r.1.1
    let best_score' := if XInt.blt best_score score then score else best_score
    let best_move' := if XInt.blt best_score score then some action else best_move
    let alpha' := xmax alpha score
    negamaxLoopFW child player rest best_score' best_move' alpha' beta b2 r.2.2

/-- Modelled from the spec: `negamax` with alpha-beta pruning disabled
(§8 "disabling alpha-beta pruning (full-width search)"): same code with
the cutoff-free loop. -/
def negamaxFW (zob : Nat → Nat × Nat) (board : Board) (depth : Nat)
    (alpha beta : XInt) (player : Int) (cache : Cache) :
    CVal × Board × Cache :=
  if check_winner board (-player) then
    ((XInt.fin (-999999 + (depth : Int)), none), board, cache)
  else
    let va := valid_actions board
    if va = [] then ((XInt.fin 0, none), board, cache)
    else
      match depth with
      | 0 => ((XInt.fin (evaluate_board board player), none), board, cache)
      | d + 1 =>
        let board_hash := compute_zobrist_hash zob board
        match cacheFind cache (board_hash, player, d + 1) with
        | some v => (v, board, cache)
        | none =>
          let om := order_moves board va player
          let lr := negamaxLoopFW (fun b a bb c => negamaxFW zob b d a bb (-player) c)
            player om.1 XInt.negInf none alpha beta om.2 cache
          (lr.1, lr.2.1, ((board_hash, player, d + 1), lr.1) :: lr.2.2)

/-- Applying a list of stones `(cell, player)` to a board by direct writes,
as the game loop accumulates a position move by move. -/
def applyStones (board : Board) : List (Nat × Int) → Board
  | [] => board
  | s :: rest => applyStones (bset board s.1 s.2) rest

/-! ### Basic board lemmas -/

theorem bget_cons_succ (x : Int) (xs : List Int) (n : Nat) :
    bget (x :: xs) (n + 1) = bget xs n := rfl

theorem bset_cons_succ (x : Int) (xs : List Int) (n : Nat) (v : Int) :
    bset (x :: xs) (n + 1) v = x :: bset xs n v := rfl

theorem set_getD_zero (l : List Int) (a : Nat) (h : l.getD a 0 = 0) :
    l.set a 0 = l := by
  induction l generalizing a with
  | nil => simp
  | cons x xs ih =>
    cases a with
    | zero => simp_all [List.getD]
    | succ n =>
      simp only [List.set]
      have := ih n (by simpa [List.getD] using h)
      rw [this]

theorem bset_bset_restore (b : Board) (a : Nat) (v : Int) (h : bget b a = 0) :
    bset (bset b a v) a 0 = b := by
  unfold bset
  rw [List.set_set]
  exact set_getD_zero b a h

theorem bget_bset_self (b : Board) (a : Nat) (v : Int) (h : a < b.length) :
    bget (bset b a v) a = v := by
  induction b generalizing a with
  | nil => simp at h
  | cons x xs ih =>
    cases a with
    | zero => rfl
    | succ n =>
      rw [bset_cons_succ, bget_cons_succ]
      exact ih n (by simpa using h)

theorem bget_bset_ne (b : Board) (a c : Nat) (v : Int) (h : c ≠ a) :
    bget (bset b a v) c = bget b c := by
  induction b generalizing a c with
  | nil => rfl
  | cons x xs ih =>
    cases a with
    | zero =>
      cases c with
      | zero => exact absurd rfl h
      | succ m => rfl
    | succ n =>
      cases c with
      | zero => rfl
      | succ m =>
        rw [bset_cons_succ, bget_cons_succ, bget_cons_succ]
        exact ih n m (fun hc => h (by rw [hc]))

theorem length_bset (b : Board) (a : Nat) (v : Int) :
    (bset b a v).length = b.length := List.length_set b a v

/-! ### C4: the evaluator's scoring table -/

/-- C4.  For every board and player, `evaluate_board` follows the scoring
table of the spec: `0` when both shortest-path distances are unreachable,
`-9999` when only the player's own connection is unreachable, `9999` when
only the opponent's is, and `d_opp - d_self` when both are reachable. -/
theorem evaluate_board_table (b : Board) (p : Int) :
    evaluate_board b p =
      match shortest_path_length b p, shortest_path_length b (-p) with
      | none, none => 0
      | none, some _ => -9999
      | some _, none => 9999
      | some ds, some dp => (dp : Int) - (ds : Int) := by
  unfold evaluate_board
  rcases shortest_path_length b p with _ | ds <;>
    rcases shortest_path_length b (-p) with _ | dp <;> simp

/-! ### C9: antisymmetry of the evaluator in the player -/

/-- C9.  For every board and player, `evaluate_board board (-p) =
-(evaluate_board board p)`: the heuristic is antisymmetric in the player
argument, which makes the negamax sign-flip convention sound at leaves. -/
theorem evaluate_board_antisymm (b : Board) (p : Int) :
    evaluate_board b (-p) = - evaluate_board b p := by
  unfold evaluate_board
  rw [neg_neg]
  rcases shortest_path_length b p with _ | ds <;>
    rcases shortest_path_length b (-p) with _ | dp <;> simp

/-! ### C8: apply_action error behavior -/

/-- C8.  On a well-formed board and in-range cell, `apply_action` fails
(returns `none`, the Python `ValueError`) exactly when the cell is
occupied; the error path returns before the single write, so on failure
the board is untouched, and on success exactly that one cell changes,
from empty to `player`. -/
theorem apply_action_spec (b : Board) (a : Nat) (p : Int)
    (hb : b.length = SIZE * SIZE) (ha : a < SIZE * SIZE) :
    ((apply_action b a p = none) ↔ bget b a ≠ 0) ∧
    (∀ b', apply_action b a p = some b' →
      bget b a = 0 ∧ bget b' a = p ∧ ∀ c : Nat, c ≠ a → bget b' c = bget b c) := by
  constructor
  · unfold apply_action is_valid_action
    by_cases h : bget b a = 0 <;> simp [h]
  · intro b' hb'
    unfold apply_action is_valid_action at hb'
    by_cases h : bget b a = 0
    · simp only [h, beq_self_eq_true, not_true_eq_false, if_false, Option.some.injEq] at hb'
      subst hb'
      exact ⟨h, bget_bset_self b a p (by omega), fun c hc => bget_bset_ne b a c p hc⟩
    · have hbeq : (bget b a == 0) = false := by simpa using h
      simp [hbeq] at hb'

/-- Witness for C8 at a concrete input: the empty board, cell 5, player 1. -/
theorem apply_action_spec_witness :
    ((apply_action (List.replicate 16 0) 5 1 = none) ↔
      bget (List.replicate 16 0) 5 ≠ 0) ∧
    (∀ b', apply_action (List.replicate 16 0) 5 1 = some b' →
      bget (List.replicate 16 0) 5 = 0 ∧ bget b' 5 = 1 ∧
      ∀ c : Nat, c ≠ 5 → bget b' c = bget (List.replicate 16 0) c) :=
  apply_action_spec (List.replicate 16 0) 5 1 (by decide) (by decide)

/-! ### Neighbor bounds -/

theorem mem_get_neighbors_bounds (c n : Nat) (h : n ∈ get_neighbors c) :
    n < SIZE * SIZE ∧ n / SIZE ≤ c / SIZE + 1 ∧ n % SIZE ≤ c % SIZE + 1 := by
  unfold get_neighbors at h
  simp only [List.mem_filterMap, List.mem_cons, List.not_mem_nil, or_false] at h
  obtain ⟨d, hd, hsome⟩ := h
  rcases hd with rfl | rfl | rfl | rfl | rfl | rfl <;>
  · split at hsome
    · simp only [Option.some.injEq] at hsome
      subst hsome
      simp only [SIZE] at *
      omega
    · exact absurd hsome (by simp)

theorem mem_get_neighbors_lt (c n : Nat) (h : n ∈ get_neighbors c) :
    n < SIZE * SIZE := (mem_get_neighbors_bounds c n h).1

/-! ### C10: shortest-path distances are at least SIZE - 1 -/

theorem bfsExpand_rank (board : Board) (tv : Int) (rank : Nat → Nat)
    (dist : Nat) (current : Nat) (hcur : rank current ≤ dist)
    (hadj : ∀ cc n, n ∈ get_neighbors cc → rank n ≤ rank cc + 1) :
    ∀ (nbrs : List Nat), (∀ n ∈ nbrs, n ∈ get_neighbors current) →
    ∀ (vq : Finset Nat × List (Nat × Nat)), (∀ pr ∈ vq.2, rank pr.1 ≤ pr.2) →
    ∀ pr ∈ (bfsExpand board tv (dist + 1) vq nbrs).2, rank pr.1 ≤ pr.2 := by
  intro nbrs
  induction nbrs with
  | nil => intro _ vq hvq; exact hvq
  | cons nxt rest ih =>
    intro hmem vq hvq
    unfold bfsExpand
    rw [List.foldl_cons]
    have hrec := ih (fun n hn => hmem n (List.mem_cons_of_mem _ hn))
    split
    · refine hrec _ ?_
      intro pr hpr
      rcases List.mem_append.mp hpr with hold | hnew
      · exact hvq pr hold
      · simp only [List.mem_singleton] at hnew
        subst hnew
        have : rank nxt ≤ rank current + 1 :=
          hadj current nxt (hmem nxt (List.mem_cons_self _ _))
        simpa using Nat.le_trans this (by omega)
    · exact hrec vq hvq

theorem bfsLoop_rank (board : Board) (tv : Int) (goalb : Nat → Bool)
    (rank : Nat → Nat)
    (hgoal : ∀ c, goalb c = true → SIZE - 1 ≤ rank c)
    (hadj : ∀ cc n, n ∈ get_neighbors cc → rank n ≤ rank cc + 1) :
    ∀ (fuel : Nat) (visited : Finset Nat) (queue : List (Nat × Nat)),
    (∀ pr ∈ queue, rank pr.1 ≤ pr.2) →
    ∀ d, bfsLoop board tv goalb fuel visited queue = some d → SIZE - 1 ≤ d := by
  intro fuel
  induction fuel with
  | zero => intro _ _ _ d h; exact absurd h (by simp [bfsLoop])
  | succ fuel ih =>
    intro visited queue hq d h
    match queue with
    | [] => exact absurd h (by simp [bfsLoop])
    | (current, dist) :: rest =>
      rw [bfsLoop] at h
      split at h
      · next hg =>
        have hd : dist = d := by simpa using h
        subst hd
        exact Nat.le_trans (hgoal current hg) (hq (current, dist) (by simp))
      · refine ih _ _ ?_ d h
        exact bfsExpand_rank board tv rank dist current
          (hq (current, dist) (by simp))
          hadj (get_neighbors current) (fun n hn => hn) (visited, rest)
          (fun pr hpr => hq pr (List.mem_cons_of_mem _ hpr))

/-- C10.  For every board and player in {1, -1}, whenever
`shortest_path_length` returns a distance `d` (rather than `none`), then
`d ≥ SIZE - 1 = 3`: each BFS step changes the relevant coordinate (row for
player 1, column for player -1) by at most one, and the start and goal
edges are `SIZE - 1` apart; in particular the distance is never 0. -/
theorem shortest_path_length_lower (b : Board) (p : Int)
    (hp : p = 1 ∨ p = -1) (d : Nat)
    (h : shortest_path_length b p = some d) : SIZE - 1 ≤ d := by
  rcases hp with rfl | rfl
  · refine bfsLoop_rank b (winner_value 1) (sp_goal 1) (fun c => c / SIZE)
      ?_ ?_ BFS_FUEL _ _ ?_ d h
    · intro c hc
      show SIZE - 1 ≤ c / SIZE
      simp [sp_goal, SIZE] at hc ⊢
      omega
    · intro cc n hn
      exact (mem_get_neighbors_bounds cc n hn).2.1
    · intro pr hpr
      simp only [List.mem_map] at hpr
      obtain ⟨s, hs, rfl⟩ := hpr
      have : s < SIZE := by
        simp [sp_starts] at hs
        exact hs.1
      simp only [SIZE] at *
      omega
  · refine bfsLoop_rank b (winner_value (-1)) (sp_goal (-1)) (fun c => c % SIZE)
      ?_ ?_ BFS_FUEL _ _ ?_ d h
    · intro c hc
      show SIZE - 1 ≤ c % SIZE
      simp [sp_goal, SIZE] at hc ⊢
      omega
    · intro cc n hn
      exact (mem_get_neighbors_bounds cc n hn).2.2
    · intro pr hpr
      simp only [List.mem_map] at hpr
      obtain ⟨s, hs, rfl⟩ := hpr
      have : ∃ r, r < SIZE ∧ s = r * SIZE := by
        simp [sp_starts] at hs
        obtain ⟨⟨r, hr, rfl⟩, _⟩ := hs
        exact ⟨r, hr, rfl⟩
      obtain ⟨r, hr, rfl⟩ := this
      simp only [SIZE] at *
      omega

/-- Test board: player 1 owns all of column 0 (a top-bottom connection). -/
def bCol0 : Board := [1,0,0,0, 1,0,0,0, 1,0,0,0, 1,0,0,0]

/-- Witness for C10 at a concrete input: on `bCol0`, player 1's shortest
connection distance is 3, and the theorem yields `SIZE - 1 ≤ 3`. -/
theorem shortest_path_length_lower_witness :
    ((1 : Int) = 1 ∨ (1 : Int) = -1) ∧
    shortest_path_length bCol0 1 = some 3 ∧ SIZE - 1 ≤ 3 :=
  ⟨Or.inl rfl, by decide, shortest_path_length_lower bCol0 1 (Or.inl rfl) 3 (by decide)⟩

/-! ### C6: Zobrist hashing -/

/-- Table entry folded in for an occupied cell `c`: the player-1 entry if
the cell holds 1, the player-(-1) entry if it holds -1. -/
def zobrist_entry (zob : Nat → Nat × Nat) (board : Board) (c : Nat) : Nat :=
  if bget board c = 1 then (zob c).1 else (zob c).2

theorem hash_fold_congr (zob : Nat → Nat × Nat) (b1 b2 : Board)
    (l : List Nat) (h : ∀ c ∈ l, bget b1 c = bget b2 c) (a : Nat) :
    l.foldl (fun h cell_id =>
      if bget b1 cell_id = 1 then h ^^^ (zob cell_id).1
      else if bget b1 cell_id = -1 then h ^^^ (zob cell_id).2
      else h) a =
    l.foldl (fun h cell_id =>
      if bget b2 cell_id = 1 then h ^^^ (zob cell_id).1
      else if bget b2 cell_id = -1 then h ^^^ (zob cell_id).2
      else h) a := by
  induction l generalizing a with
  | nil => rfl
  | cons x xs ih =>
    simp only [List.foldl_cons]
    rw [h x (List.mem_cons_self _ _)]
    exact ih (fun c hc => h c (List.mem_cons_of_mem _ hc)) _

theorem compute_zobrist_hash_congr (zob : Nat → Nat × Nat) (b1 b2 : Board)
    (h : ∀ c, c < SIZE * SIZE → bget b1 c = bget b2 c) :
    compute_zobrist_hash zob b1 = compute_zobrist_hash zob b2 := by
  unfold compute_zobrist_hash
  exact hash_fold_congr zob b1 b2 _ (fun c hc => h c (List.mem_range.mp hc)) 0

theorem applyStones_length (b : Board) (l : List (Nat × Int)) :
    (applyStones b l).length = b.length := by
  induction l generalizing b with
  | nil => rfl
  | cons s rest ih => rw [applyStones, ih, length_bset]

theorem applyStones_bget_not_mem (b : Board) (l : List (Nat × Int)) (c : Nat)
    (h : c ∉ l.map Prod.fst) : bget (applyStones b l) c = bget b c := by
  induction l generalizing b with
  | nil => rfl
  | cons s rest ih =>
    rw [applyStones]
    simp only [List.map_cons, List.mem_cons] at h
    push_neg at h
    rw [ih _ h.2, bget_bset_ne _ _ _ _ h.1]

theorem applyStones_bget_mem (b : Board) (l : List (Nat × Int)) (c : Nat) (p : Int)
    (hnd : (l.map Prod.fst).Nodup) (hmem : (c, p) ∈ l) (hc : c < b.length) :
    bget (applyStones b l) c = p := by
  induction l generalizing b with
  | nil => simp at hmem
  | cons s rest ih =>
    rw [applyStones]
    simp only [List.map_cons, List.nodup_cons] at hnd
    rcases List.mem_cons.mp hmem with rfl | htail
    · rw [applyStones_bget_not_mem _ _ _ hnd.1]
      exact bget_bset_self b c p hc
    · exact ih _ hnd.2 htail (by rw [length_bset]; exact hc)

instance : Std.Commutative (fun x1 x2 : Nat => x1 ^^^ x2) := ⟨Nat.xor_comm⟩

instance : Std.Associative (fun x1 x2 : Nat => x1 ^^^ x2) := ⟨Nat.xor_assoc⟩

theorem hash_list_fold_eq (zob : Nat → Nat × Nat) (b : Board) (n : Nat) :
    (List.range n).foldl (fun h cell_id =>
      if bget b cell_id = 1 then h ^^^ (zob cell_id).1
      else if bget b cell_id = -1 then h ^^^ (zob cell_id).2
      else h) 0 =
    Finset.fold (fun a b : Nat => a ^^^ b) 0 (zobrist_entry zob b)
      ((Finset.range n).filter (fun c => bget b c = 1 ∨ bget b c = -1)) := by
  induction n with
  | zero => rfl
  | succ n ih =>
    rw [List.range_succ, List.foldl_append, List.foldl_cons, List.foldl_nil,
      Finset.range_succ, Finset.filter_insert]
    have hnot : n ∉ (Finset.range n).filter (fun c => bget b c = 1 ∨ bget b c = -1) := by
      simp [Finset.mem_filter]
    by_cases h1 : bget b n = 1
    · rw [if_pos h1, if_pos (Or.inl h1), Finset.fold_insert hnot, ih,
        zobrist_entry, if_pos h1]
      exact Nat.xor_comm _ _
    · by_cases h2 : bget b n = -1
      · rw [if_neg h1, if_pos h2, if_pos (Or.inr h2), Finset.fold_insert hnot, ih,
          zobrist_entry, if_neg h1]
        exact Nat.xor_comm _ _
      · rw [if_neg h1, if_neg h2, if_neg (by simp [h1, h2]), ih]

/-- C6.  For any Zobrist table: (first conjunct) two boards with identical
cell contents hash identically; (second conjunct) applying the same set of
stones — pairwise-distinct in-range cells — in any two orders yields the
same hash; (third conjunct) the hash is the exclusive-or, over every
occupied cell, of the table entry for that cell and its occupying player. -/
theorem compute_zobrist_hash_spec (zob : Nat → Nat × Nat) :
    (∀ b1 b2 : Board, (∀ c, c < SIZE * SIZE → bget b1 c = bget b2 c) →
      compute_zobrist_hash zob b1 = compute_zobrist_hash zob b2) ∧
    (∀ (b : Board) (s1 s2 : List (Nat × Int)), s1.Perm s2 →
      (s1.map Prod.fst).Nodup → (∀ s ∈ s1, s.1 < b.length) →
      compute_zobrist_hash zob (applyStones b s1) =
        compute_zobrist_hash zob (applyStones b s2)) ∧
    (∀ b : Board, compute_zobrist_hash zob b =
      Finset.fold (fun a b : Nat => a ^^^ b) 0 (zobrist_entry zob b)
        ((Finset.range (SIZE * SIZE)).filter
          (fun c => bget b c = 1 ∨ bget b c = -1))) := by
  refine ⟨compute_zobrist_hash_congr zob, ?_, fun b => hash_list_fold_eq zob b _⟩
  intro b s1 s2 hperm hnd hlen
  have hnd2 : (s2.map Prod.fst).Nodup := ((hperm.map Prod.fst).nodup_iff).mp hnd
  refine compute_zobrist_hash_congr zob _ _ (fun c _ => ?_)
  by_cases hc : c ∈ s1.map Prod.fst
  · simp only [List.mem_map] at hc
    obtain ⟨⟨c', p⟩, hmem, hfst⟩ := hc
    subst hfst
    have hmem2 : (c', p) ∈ s2 := hperm.mem_iff.mp hmem
    rw [applyStones_bget_mem b s1 c' p hnd hmem (hlen _ hmem),
      applyStones_bget_mem b s2 c' p hnd2 hmem2 (hlen _ hmem)]
  · have hc2 : c ∉ s2.map Prod.fst := fun hx =>
      hc ((hperm.map Prod.fst).mem_iff.mpr hx)
    rw [applyStones_bget_not_mem b s1 c hc, applyStones_bget_not_mem b s2 c hc2]

/-- Test Zobrist table with distinct powers of two as entries. -/
def ztest : Nat → Nat × Nat := fun c => (2 ^ c, 2 ^ (16 + c))

/-- Test board: the empty 4x4 board. -/
def bEmpty : Board := List.replicate 16 0

/-- Witness for C6 at a concrete input: the stones (0, player 1) and
(5, player -1) applied to the empty board in either order. -/
theorem compute_zobrist_hash_spec_witness :
    compute_zobrist_hash ztest (applyStones bEmpty [(0, 1), (5, -1)]) =
      compute_zobrist_hash ztest (applyStones bEmpty [(5, -1), (0, 1)]) :=
  (compute_zobrist_hash_spec ztest).2.1 bEmpty [(0, 1), (5, -1)] [(5, -1), (0, 1)]
    (by decide) (by decide) (by decide)

/-! ### Unfolding equations for negamax -/

theorem negamax_winner (zob : Nat → Nat × Nat) (board : Board) (depth : Nat)
    (alpha beta : XInt) (p : Int) (cache : Cache)
    (h : check_winner board (-p) = true) :
    negamax zob board depth alpha beta p cache =
      ((XInt.fin (-999999 + (depth : Int)), none), board, cache) := by
  rw [negamax.eq_def, if_pos h]

theorem negamax_draw (zob : Nat → Nat × Nat) (board : Board) (depth : Nat)
    (alpha beta : XInt) (p : Int) (cache : Cache)
    (hw : check_winner board (-p) = false) (hv : valid_actions board = []) :
    negamax zob board depth alpha beta p cache =
      ((XInt.fin 0, none), board, cache) := by
  rw [negamax.eq_def, if_neg (by simp [hw])]
  simp [hv]

theorem negamax_depth0 (zob : Nat → Nat × Nat) (board : Board)
    (alpha beta : XInt) (p : Int) (cache : Cache)
    (hw : check_winner board (-p) = false) (hv : ¬ valid_actions board = []) :
    negamax zob board 0 alpha beta p cache =
      ((XInt.fin (evaluate_board board p), none), board, cache) := by
  rw [negamax.eq_def, if_neg (by simp [hw])]
  simp only [hv, if_neg, if_false]

theorem negamax_hit (zob : Nat → Nat × Nat) (board : Board) (d : Nat)
    (alpha beta : XInt) (p : Int) (cache : Cache) (v : CVal)
    (hw : check_winner board (-p) = false) (hv : ¬ valid_actions board = [])
    (hc : cacheFind cache (compute_zobrist_hash zob board, p, d + 1) = some v) :
    negamax zob board (d + 1) alpha beta p cache = (v, board, cache) := by
  rw [negamax.eq_def, if_neg (by simp [hw])]
  simp only [hv, if_neg, if_false, hc]

theorem negamax_miss (zob : Nat → Nat × Nat) (board : Board) (d : Nat)
    (alpha beta : XInt) (p : Int) (cache : Cache)
    (hw : check_winner board (-p) = false) (hv : ¬ valid_actions board = [])
    (hc : cacheFind cache (compute_zobrist_hash zob board, p, d + 1) = none) :
    negamax zob board (d + 1) alpha beta p cache =
      (let om := order_moves board (valid_actions board) p
       let lr := negamaxLoop (fun b a bb c => negamax zob b d a bb (-p) c)
         p om.1 XInt.negInf none alpha beta om.2 cache
       (lr.1, lr.2.1, ((compute_zobrist_hash zob board, p, d + 1), lr.1) :: lr.2.2)) := by
  rw [negamax.eq_def, if_neg (by simp [hw])]
  simp only [hv, if_neg, if_false, hc]

theorem negamaxFW_winner (zob : Nat → Nat × Nat) (board : Board) (depth : Nat)
    (alpha beta : XInt) (p : Int) (cache : Cache)
    (h : check_winner board (-p) = true) :
    negamaxFW zob board depth alpha beta p cache =
      ((XInt.fin (-999999 + (depth : Int)), none), board, cache) := by
  rw [negamaxFW.eq_def, if_pos h]

theorem negamaxFW_draw (zob : Nat → Nat × Nat) (board : Board) (depth : Nat)
    (alpha beta : XInt) (p : Int) (cache : Cache)
    (hw : check_winner board (-p) = false) (hv : valid_actions board = []) :
    negamaxFW zob board depth alpha beta p cache =
      ((XInt.fin 0, none), board, cache) := by
  rw [negamaxFW.eq_def, if_neg (by simp [hw])]
  simp [hv]

theorem negamaxFW_depth0 (zob : Nat → Nat × Nat) (board : Board)
    (alpha beta : XInt) (p : Int) (cache : Cache)
    (hw : check_winner board (-p) = false) (hv : ¬ valid_actions board = []) :
    negamaxFW zob board 0 alpha beta p cache =
      ((XInt.fin (evaluate_board board p), none), board, cache) := by
  rw [negamaxFW.eq_def, if_neg (by simp [hw])]
  simp only [hv, if_neg, if_false]

theorem negamaxFW_hit (zob : Nat → Nat × Nat) (board : Board) (d : Nat)
    (alpha beta : XInt) (p : Int) (cache : Cache) (v : CVal)
    (hw : check_winner board (-p) = false) (hv : ¬ valid_actions board = [])
    (hc : cacheFind cache (compute_zobrist_hash zob board, p, d + 1) = some v) :
    negamaxFW zob board (d + 1) alpha beta p cache = (v, board, cache) := by
  rw [negamaxFW.eq_def, if_neg (by simp [hw])]
  simp only [hv, if_neg, if_false, hc]

theorem negamaxFW_miss (zob : Nat → Nat × Nat) (board : Board) (d : Nat)
    (alpha beta : XInt) (p : Int) (cache : Cache)
    (hw : check_winner board (-p) = false) (hv : ¬ valid_actions board = [])
    (hc : cacheFind cache (compute_zobrist_hash zob board, p, d + 1) = none) :
    negamaxFW zob board (d + 1) alpha beta p cache =
      (let om := order_moves board (valid_actions board) p
       let lr := negamaxLoopFW (fun b a bb c => negamaxFW zob b d a bb (-p) c)
         p om.1 XInt.negInf none alpha beta om.2 cache
       (lr.1, lr.2.1, ((compute_zobrist_hash zob board, p, d + 1), lr.1) :: lr.2.2)) := by
  rw [negamaxFW.eq_def, if_neg (by simp [hw])]
  simp only [hv, if_neg, if_false, hc]

/-! ### Facts about valid_actions and order_moves -/

theorem valid_actions_mem (board : Board) (a : Nat) (h : a ∈ valid_actions board) :
    a < SIZE * SIZE ∧ bget board a = 0 := by
  simp only [valid_actions, List.mem_filter, List.mem_range, decide_eq_true_eq] at h
  exact h

theorem score_actions_fst (p : Int) :
    ∀ (l : List Nat) (b : Board), (score_actions b p l).1.map Prod.fst = l := by
  intro l
  induction l with
  | nil => intro b; rfl
  | cons a rest ih =>
    intro b
    unfold score_actions
    simp only
    rw [List.map_cons]
    have := ih (bset (bset b a p) a 0)
    simp only [this]

theorem score_actions_board (p : Int) :
    ∀ (l : List Nat) (b : Board), (∀ a ∈ l, bget b a = 0) →
      (score_actions b p l).2 = b := by
  intro l
  induction l with
  | nil => intro b _; rfl
  | cons a rest ih =>
    intro b h
    unfold score_actions
    simp only
    rw [bset_bset_restore b a p (h a (List.mem_cons_self _ _))]
    exact ih b (fun x hx => h x (List.mem_cons_of_mem _ hx))

theorem order_moves_board (b : Board) (va : List Nat) (p : Int)
    (h : ∀ a ∈ va, bget b a = 0) : (order_moves b va p).2 = b :=
  score_actions_board p va b h

theorem order_moves_mem (b : Board) (va : List Nat) (p : Int) (a : Nat)
    (h : a ∈ (order_moves b va p).1) : a ∈ va := by
  unfold order_moves at h
  simp only [List.mem_map] at h
  obtain ⟨x, hx, rfl⟩ := h
  have hperm := List.perm_insertionSort (fun x y : Nat × Int => y.2 ≤ x.2)
    (score_actions b p va).1
  have : x ∈ (score_actions b p va).1 := hperm.mem_iff.mp hx
  have : x.1 ∈ (score_actions b p va).1.map Prod.fst := List.mem_map_of_mem _ this
  rwa [score_actions_fst] at this

theorem order_moves_ne_nil (b : Board) (va : List Nat) (p : Int)
    (h : va ≠ []) : (order_moves b va p).1 ≠ [] := by
  unfold order_moves
  intro hx
  apply h
  have hperm := List.perm_insertionSort (fun x y : Nat × Int => y.2 ≤ x.2)
    (score_actions b p va).1
  have hlen : ((score_actions b p va).1.insertionSort
      (fun x y : Nat × Int => y.2 ≤ x.2)).length = va.length := by
    rw [hperm.length_eq]
    have := congrArg List.length (score_actions_fst p va b)
    simpa using this
  have : va.length = 0 := by
    rw [← hlen]
    simpa using congrArg List.length hx
  exact List.length_eq_zero.mp this

/-! ### C2: board restoration -/

theorem negamaxLoop_board (child : Board → XInt → XInt → Cache → CVal × Board × Cache)
    (hchild : ∀ b a bb c, (child b a bb c).2.1 = b) (p : Int) :
    ∀ (actions : List Nat) (best : XInt) (mv : Option Nat) (alpha beta : XInt)
      (board : Board) (cache : Cache), (∀ a ∈ actions, bget board a = 0) →
      (negamaxLoop child p actions best mv alpha beta board cache).2.1 = board := by
  intro actions
  induction actions with
  | nil => intro best mv alpha beta board cache _; rfl
  | cons a rest ih =>
    intro best mv alpha beta board cache h
    rw [negamaxLoop]
    simp only [hchild]
    rw [bset_bset_restore board a p (h a (List.mem_cons_self _ _))]
    split
    · rfl
    · exact ih _ _ _ _ board _ (fun x hx => h x (List.mem_cons_of_mem _ hx))

theorem negamax_board (zob : Nat → Nat × Nat) :
    ∀ (depth : Nat) (board : Board) (alpha beta : XInt) (p : Int) (cache : Cache),
      (negamax zob board depth alpha beta p cache).2.1 = board := by
  intro depth
  induction depth with
  | zero =>
    intro board alpha beta p cache
    by_cases hw : check_winner board (-p) = true
    · rw [negamax_winner zob board 0 alpha beta p cache hw]
    · rw [Bool.not_eq_true] at hw
      by_cases hv : valid_actions board = []
      · rw [negamax_draw zob board 0 alpha beta p cache hw hv]
      · rw [negamax_depth0 zob board alpha beta p cache hw hv]
  | succ d ih =>
    intro board alpha beta p cache
    by_cases hw : check_winner board (-p) = true
    · rw [negamax_winner zob board (d + 1) alpha beta p cache hw]
    · rw [Bool.not_eq_true] at hw
      by_cases hv : valid_actions board = []
      · rw [negamax_draw zob board (d + 1) alpha beta p cache hw hv]
      · cases hc : cacheFind cache (compute_zobrist_hash zob board, p, d + 1) with
        | some v => rw [negamax_hit zob board d alpha beta p cache v hw hv hc]
        | none =>
          rw [negamax_miss zob board d alpha beta p cache hw hv hc]
          simp only
          have hom : (order_moves board (valid_actions board) p).2 = board :=
            order_moves_board board _ p (fun a ha => (valid_actions_mem board a ha).2)
          rw [hom]
          exact negamaxLoop_board _ (fun b a bb c => ih b a bb (-p) c) p _ _ _ _ _
            board cache
            (fun a ha => (valid_actions_mem board a (order_moves_mem _ _ _ a ha)).2)

/-- C2.  After any call to the search engine the board is bit-for-bit
identical to its pre-call state: `negamax` (for every board, depth,
window, player and cache) and hence `find_best_move` return the board
exactly as received — all tentative and recursive apply/undo pairs cancel. -/
theorem negamax_board_restoration :
    (∀ (zob : Nat → Nat × Nat) (board : Board) (depth : Nat)
      (alpha beta : XInt) (p : Int) (cache : Cache),
      (negamax zob board depth alpha beta p cache).2.1 = board) ∧
    (∀ (zob : Nat → Nat × Nat) (board : Board) (p : Int) (max_depth : Nat),
      (find_best_move zob board p max_depth).2 = board) :=
  ⟨fun zob board depth alpha beta p cache => negamax_board zob depth board alpha beta p cache,
   fun zob board p max_depth => negamax_board zob max_depth board _ _ p []⟩

/-! ### C3: immediate terminal score when the opponent has already won -/

/-- C3.  If the side that moved last (`-player`) already has a winning
connection, `negamax` returns the score `-999999 + depth` and no move,
for every depth, window and cache, before enumerating moves, consulting
the cache, or calling the evaluator (it is the first branch taken). -/
theorem negamax_terminal_win (zob : Nat → Nat × Nat) (board : Board)
    (depth : Nat) (alpha beta : XInt) (p : Int) (cache : Cache)
    (h : check_winner board (-p) = true) :
    negamax zob board depth alpha beta p cache =
      ((XInt.fin (-999999 + (depth : Int)), none), board, cache) :=
  negamax_winner zob board depth alpha beta p cache h

/-- Test board: player -1 owns all of row 0 (a left-right connection). -/
def bRow0 : Board := [-1,-1,-1,-1, 0,0,0,0, 0,0,0,0, 0,0,0,0]

/-- Witness for C3 at a concrete input: on `bRow0` the opponent of
player 1 has already won, and a depth-3 call returns `-999999 + 3`. -/
theorem negamax_terminal_win_witness :
    check_winner bRow0 (-(1 : Int)) = true ∧
    negamax ztest bRow0 3 XInt.negInf XInt.posInf 1 [] =
      ((XInt.fin (-999999 + (3 : Int)), none), bRow0, []) :=
  ⟨by decide, negamax_terminal_win ztest bRow0 3 XInt.negInf XInt.posInf 1 [] (by decide)⟩

/-! ### XInt helper lemmas -/

theorem XInt.isfin_negx (s : XInt) : (XInt.negx s).isfin = s.isfin := by
  cases s <;> rfl

theorem XInt.isfin_exists (s : XInt) (h : s.isfin = true) : ∃ n, s = XInt.fin n := by
  cases s with
  | fin n => exact ⟨n, rfl⟩
  | negInf => exact absurd h (by simp [XInt.isfin])
  | posInf => exact absurd h (by simp [XInt.isfin])

theorem XInt.blt_negInf_fin (n : Int) : XInt.blt XInt.negInf (XInt.fin n) = true := rfl

/-! ### C1: the cache is score-finite, the loop always picks a move -/

/-- Score-finiteness of every cache entry (true of every cache the engine
builds, starting from the empty one). -/
def CacheWF (c : Cache) : Prop :=
  ∀ k v, cacheFind c k = some v → v.1.isfin = true

theorem cacheWF_nil : CacheWF [] := by
  intro k v h
  exact absurd h (by simp [cacheFind])

theorem cacheFind_cons (k0 : CKey) (v0 : CVal) (c : Cache) (k : CKey) :
    cacheFind ((k0, v0) :: c) k = if k0 = k then some v0 else cacheFind c k := rfl

theorem cacheWF_cons (k0 : CKey) (v0 : CVal) (c : Cache)
    (h0 : v0.1.isfin = true) (hc : CacheWF c) : CacheWF ((k0, v0) :: c) := by
  intro k v hf
  rw [cacheFind_cons] at hf
  split at hf
  · cases hf; exact h0
  · exact hc k v hf

theorem negamaxLoop_fin (child : Board → XInt → XInt → Cache → CVal × Board × Cache)
    (hchild : ∀ b a bb c, CacheWF c →
      (child b a bb c).1.1.isfin = true ∧ CacheWF (child b a bb c).2.2) (p : Int) :
    ∀ (actions : List Nat) (best : XInt) (mv : Option Nat) (alpha beta : XInt)
      (board : Board) (cache : Cache), CacheWF cache →
      (best = XInt.negInf ∨ best.isfin = true) →
      CacheWF (negamaxLoop child p actions best mv alpha beta board cache).2.2 ∧
      ((best.isfin = true ∨ actions ≠ []) →
        (negamaxLoop child p actions best mv alpha beta board cache).1.1.isfin = true) := by
  intro actions
  induction actions with
  | nil =>
    intro best mv alpha beta board cache hcache hbest
    refine ⟨hcache, ?_⟩
    rintro (hfin | hne)
    · exact hfin
    · exact absurd rfl hne
  | cons a rest ih =>
    intro best mv alpha beta board cache hcache hbest
    rw [negamaxLoop]
    have hch := hchild (bset board a p) (XInt.negx beta) (XInt.negx alpha) cache hcache
    have hscore : (XInt.negx (child (bset board a p) (XInt.negx beta)
        (XInt.negx alpha) cache).1.1).isfin = true := by
      rw [XInt.isfin_negx]; exact hch.1
    have hbest' : (if XInt.blt best (XInt.negx (child (bset board a p) (XInt.negx beta)
        (XInt.negx alpha) cache).1.1) then
          XInt.negx (child (bset board a p) (XInt.negx beta) (XInt.negx alpha) cache).1.1
        else best).isfin = true := by
      rcases hbest with rfl | hfin
      · obtain ⟨n, hn⟩ := XInt.isfin_exists _ hscore
        rw [hn, XInt.blt_negInf_fin, if_pos rfl]
        rfl
      · split
        · exact hscore
        · exact hfin
    split
    · exact ⟨hch.2, fun _ => hbest'⟩
    · exact ⟨(ih _ _ _ _ _ _ hch.2 (Or.inr hbest')).1,
        fun _ => (ih _ _ _ _ _ _ hch.2 (Or.inr hbest')).2 (Or.inl hbest')⟩

theorem negamaxLoop_move (child : Board → XInt → XInt → Cache → CVal × Board × Cache)
    (p : Int) :
    ∀ (actions : List Nat) (best : XInt) (mv : Option Nat) (alpha beta : XInt)
      (board : Board) (cache : Cache),
      (negamaxLoop child p actions best mv alpha beta board cache).1.2 = mv ∨
      ∃ a ∈ actions, (negamaxLoop child p actions best mv alpha beta board cache).1.2 = some a := by
  intro actions
  induction actions with
  | nil => intro best mv alpha beta board cache; exact Or.inl rfl
  | cons a rest ih =>
    intro best mv alpha beta board cache
    rw [negamaxLoop]
    set r := child (bset board a p) (XInt.negx beta) (XInt.negx alpha) cache with hr
    set score := XInt.negx r.1.1 with hscore
    split
    · split
      · exact Or.inr ⟨a, List.mem_cons_self _ _, rfl⟩
      · exact Or.inl rfl
    · rcases ih (if XInt.blt best score then score else best)
          (if XInt.blt best score then some a else mv) (xmax alpha score) beta
          (bset r.2.1 a 0) r.2.2 with h2 | ⟨x2, hx2, hsome2⟩
      · rw [h2]
        split
        · exact Or.inr ⟨a, List.mem_cons_self _ _, rfl⟩
        · exact Or.inl rfl
      · exact Or.inr ⟨x2, List.mem_cons_of_mem _ hx2, hsome2⟩

theorem negamaxLoop_some (child : Board → XInt → XInt → Cache → CVal × Board × Cache)
    (hchild : ∀ b a bb c, CacheWF c →
      (child b a bb c).1.1.isfin = true ∧ CacheWF (child b a bb c).2.2) (p : Int)
    (a : Nat) (rest : List Nat) (mv : Option Nat) (alpha beta : XInt)
    (board : Board) (cache : Cache) (hcache : CacheWF cache) :
    ∃ x ∈ a :: rest,
      (negamaxLoop child p (a :: rest) XInt.negInf mv alpha beta board cache).1.2 = some x := by
  rw [negamaxLoop]
  have hch := hchild (bset board a p) (XInt.negx beta) (XInt.negx alpha) cache hcache
  obtain ⟨n, hn⟩ := XInt.isfin_exists _ hch.1
  have hblt : XInt.blt XInt.negInf (XInt.negx (child (bset board a p) (XInt.negx beta)
      (XInt.negx alpha) cache).1.1) = true := by
    rw [hn]; rfl
  simp only [hblt, if_pos rfl]
  split
  · exact ⟨a, List.mem_cons_self _ _, rfl⟩
  · rcases negamaxLoop_move child p rest _ _ _ _ _ _ with h | ⟨x, hx, hsome⟩
    · exact ⟨a, List.mem_cons_self _ _, h⟩
    · exact ⟨x, List.mem_cons_of_mem _ hx, hsome⟩

theorem negamax_fin (zob : Nat → Nat × Nat) :
    ∀ (depth : Nat) (board : Board) (alpha beta : XInt) (p : Int) (cache : Cache),
      CacheWF cache →
      (negamax zob board depth alpha beta p cache).1.1.isfin = true ∧
      CacheWF (negamax zob board depth alpha beta p cache).2.2 := by
  intro depth
  induction depth with
  | zero =>
    intro board alpha beta p cache hcache
    by_cases hw : check_winner board (-p) = true
    · rw [negamax_winner zob board 0 alpha beta p cache hw]; exact ⟨rfl, hcache⟩
    · rw [Bool.not_eq_true] at hw
      by_cases hv : valid_actions board = []
      · rw [negamax_draw zob board 0 alpha beta p cache hw hv]; exact ⟨rfl, hcache⟩
      · rw [negamax_depth0 zob board alpha beta p cache hw hv]; exact ⟨rfl, hcache⟩
  | succ d ih =>
    intro board alpha beta p cache hcache
    by_cases hw : check_winner board (-p) = true
    · rw [negamax_winner zob board (d + 1) alpha beta p cache hw]; exact ⟨rfl, hcache⟩
    · rw [Bool.not_eq_true] at hw
      by_cases hv : valid_actions board = []
      · rw [negamax_draw zob board (d + 1) alpha beta p cache hw hv]; exact ⟨rfl, hcache⟩
      · cases hc : cacheFind cache (compute_zobrist_hash zob board, p, d + 1) with
        | some v =>
          rw [negamax_hit zob board d alpha beta p cache v hw hv hc]
          exact ⟨hcache _ v hc, hcache⟩
        | none =>
          rw [negamax_miss zob board d alpha beta p cache hw hv hc]
          simp only
          have hloop := negamaxLoop_fin _ (fun b a bb c hc' => ih b a bb (-p) c hc') p
            (order_moves board (valid_actions board) p).1 XInt.negInf none alpha beta
            (order_moves board (valid_actions board) p).2 cache hcache (Or.inl rfl)
          have hfin := hloop.2 (Or.inr (order_moves_ne_nil board _ p hv))
          exact ⟨hfin, cacheWF_cons _ _ _ hfin hloop.1⟩

/-- C1 (amended).  For positive `max_depth`, `find_best_move` returns
either a legal move (an in-range empty cell) of the input board or
`none`; and it returns `none` exactly when the board has no legal move
OR the opponent `-player` already has a winning connection (the terminal
check fires before move enumeration). -/
theorem find_best_move_spec (zob : Nat → Nat × Nat) (b : Board) (p : Int)
    (m : Nat) (hm : 1 ≤ m) :
    (∀ a, (find_best_move zob b p m).1 = some a → a < SIZE * SIZE ∧ bget b a = 0) ∧
    ((find_best_move zob b p m).1 = none ↔
      (valid_actions b = [] ∨ check_winner b (-p) = true)) := by
  obtain ⟨d, rfl⟩ : ∃ d, m = d + 1 := ⟨m - 1, by omega⟩
  unfold find_best_move
  by_cases hw : check_winner b (-p) = true
  · rw [negamax_winner zob b (d + 1) XInt.negInf XInt.posInf p [] hw]
    constructor
    · intro a ha; exact absurd ha (by simp)
    · simp [hw]
  · rw [Bool.not_eq_true] at hw
    by_cases hv : valid_actions b = []
    · rw [negamax_draw zob b (d + 1) XInt.negInf XInt.posInf p [] hw hv]
      constructor
      · intro a ha; exact absurd ha (by simp)
      · simp [hv]
    · have hc : cacheFind [] (compute_zobrist_hash zob b, p, d + 1) = none := rfl
      rw [negamax_miss zob b d XInt.negInf XInt.posInf p [] hw hv hc]
      simp only
      obtain ⟨a0, rest0, hom⟩ :
          ∃ a0 rest0, (order_moves b (valid_actions b) p).1 = a0 :: rest0 := by
        cases homl : (order_moves b (valid_actions b) p).1 with
        | nil => exact absurd homl (order_moves_ne_nil b _ p hv)
        | cons x xs => exact ⟨x, xs, rfl⟩
      rw [hom]
      obtain ⟨x, hx, hsx⟩ := negamaxLoop_some
        (fun b2 a bb c => negamax zob b2 d a bb (-p) c)
        (fun b2 a bb c hcw => negamax_fin zob d b2 a bb (-p) c hcw) p a0 rest0 none
        XInt.negInf XInt.posInf (order_moves b (valid_actions b) p).2 [] cacheWF_nil
      constructor
      · intro a ha
        rw [hsx] at ha
        cases ha
        have hxv : x ∈ valid_actions b :=
          order_moves_mem b _ p x (by rw [hom]; exact hx)
        exact ⟨(valid_actions_mem b x hxv).1, (valid_actions_mem b x hxv).2⟩
      · constructor
        · intro hnone
          rw [hsx] at hnone
          exact absurd hnone (by simp)
        · rintro (h | h)
          · exact absurd h hv
          · rw [h] at hw; exact absurd hw (by decide)

/-- Test board: every cell owned by player 1 (no legal moves). -/
def bFull1 : Board := List.replicate 16 1

/-- Witness for C1 at a concrete input: on the full board `bFull1` with
depth 1, `find_best_move` returns `none` and the iff holds. -/
theorem find_best_move_spec_witness :
    (∀ a, (find_best_move ztest bFull1 1 1).1 = some a →
      a < SIZE * SIZE ∧ bget bFull1 a = 0) ∧
    ((find_best_move ztest bFull1 1 1).1 = none ↔
      (valid_actions bFull1 = [] ∨ check_winner bFull1 (-(1 : Int)) = true)) :=
  find_best_move_spec ztest bFull1 1 1 (by decide)

/-- Counterexample to C1 as stated: on `bRow0` (player -1 already owns a
full left-right chain) `find_best_move` for player 1 with positive depth
returns `none` although legal moves exist — so "`none` iff no legal move
exists" is false. -/
theorem find_best_move_none_cex :
    (find_best_move ztest bRow0 1 1).1 = none ∧ valid_actions bRow0 ≠ [] := by
  decide

/-! ### C7: DFS win detection computes edge-to-edge connectivity -/

/-- Reachability through the DFS of `check_winner` with blocked set `V`:
either the cell is an (owned) goal cell, or it is unblocked and some
owned neighbor reaches the goal.  This is exactly "a path whose nodes
before the last avoid `V`, whose steps follow the 6-direction adjacency
into cells holding `value`, ending in the goal list". -/
inductive DReach (board : Board) (value : Int) (goal : List Nat)
    (V : Finset Nat) : Nat → Prop
  | found (c : Nat) : c ∈ goal → DReach board value goal V c
  | step (c n : Nat) : c ∉ V → n ∈ get_neighbors c → bget board n = value →
      DReach board value goal V n → DReach board value goal V c

theorem DReach.mono (board : Board) (value : Int) (goal : List Nat)
    (V V' : Finset Nat) (hsub : V ⊆ V') (c : Nat)
    (h : DReach board value goal V' c) : DReach board value goal V c := by
  induction h with
  | found c hc => exact DReach.found c hc
  | step c n hcV hn hb _ ih => exact DReach.step c n (fun hx => hcV (hsub hx)) hn hb ih

theorem DReach.insert_split (board : Board) (value : Int) (goal : List Nat)
    (V : Finset Nat) (c : Nat) (hcg : c ∉ goal) (u : Nat)
    (h : DReach board value goal V u) :
    DReach board value goal (insert c V) u ∨
      (c ∉ V ∧ ∃ n, n ∈ get_neighbors c ∧ bget board n = value ∧
        DReach board value goal (insert c V) n) := by
  induction h with
  | found x hx => exact Or.inl (DReach.found x hx)
  | step x n hxV hn hb _ ih =>
    rcases ih with hin | hout
    · by_cases hxc : x = c
      · subst hxc
        exact Or.inr ⟨hxV, n, hn, hb, hin⟩
      · exact Or.inl (DReach.step x n (by simp [hxc, hxV]) hn hb hin)
    · exact Or.inr hout

theorem get_neighbors_length_le (c : Nat) : (get_neighbors c).length ≤ 6 := by
  unfold get_neighbors
  exact Nat.le_trans (List.length_filterMap_le _ _) (by rfl)

theorem winnerLoop_iff (board : Board) (value : Int) (goal : List Nat) :
    ∀ (fuel : Nat) (V : Finset Nat) (stack : List Nat),
      (∀ u ∈ stack, u < SIZE * SIZE) →
      7 * ((Finset.range (SIZE * SIZE)) \ V).card + stack.length < fuel →
      (winnerLoop board value goal fuel V stack = true ↔
        ∃ u ∈ stack, DReach board value goal V u) := by
  intro fuel
  induction fuel with
  | zero => intro V stack _ hm; omega
  | succ fuel ih =>
    intro V stack hlt hm
    match stack with
    | [] => simp [winnerLoop]
    | c :: rest =>
      rw [winnerLoop]
      by_cases hg : c ∈ goal
      · simp only [if_pos hg, true_iff]
        exact ⟨c, List.mem_cons_self _ _, DReach.found c hg⟩
      · rw [if_neg hg]
        by_cases hcV : c ∈ V
        · rw [if_pos hcV]
          rw [ih V rest (fun u hu => hlt u (List.mem_cons_of_mem _ hu))
            (by simp at hm ⊢; omega)]
          constructor
          · rintro ⟨u, hu, hdr⟩
            exact ⟨u, List.mem_cons_of_mem _ hu, hdr⟩
          · rintro ⟨u, hu, hdr⟩
            rcases List.mem_cons.mp hu with rfl | hu2
            · cases hdr with
              | found _ hx => exact absurd hx hg
              | step _ n hxV _ _ _ => exact absurd hcV hxV
            · exact ⟨u, hu2, hdr⟩
        · rw [if_neg hcV]
          have hclt : c < SIZE * SIZE := hlt c (List.mem_cons_self _ _)
          have hcard : ((Finset.range (SIZE * SIZE)) \ insert c V).card + 1 =
              ((Finset.range (SIZE * SIZE)) \ V).card := by
            rw [Finset.sdiff_insert]
            rw [Finset.card_erase_of_mem (by simp [Finset.mem_sdiff, hclt, hcV])]
            have hpos : 0 < ((Finset.range (SIZE * SIZE)) \ V).card :=
              Finset.card_pos.mpr ⟨c, by simp [Finset.mem_sdiff, hclt, hcV]⟩
            omega
          have hpush : (((get_neighbors c).filter
              (fun n => bget board n = value)).reverse).length ≤ 6 := by
            rw [List.length_reverse]
            exact Nat.le_trans (List.length_filter_le _ _) (get_neighbors_length_le c)
          rw [ih (insert c V) _ ?stackb ?meas]
          case stackb =>
            intro u hu
            rcases List.mem_append.mp hu with hp | hr
            · rw [List.mem_reverse] at hp
              exact mem_get_neighbors_lt c u (List.mem_filter.mp hp).1
            · exact hlt u (List.mem_cons_of_mem _ hr)
          case meas =>
            rw [List.length_append]
            simp only [List.length_cons] at hm
            omega
          constructor
          · rintro ⟨u, hu, hdr⟩
            rcases List.mem_append.mp hu with hp | hr
            · rw [List.mem_reverse, List.mem_filter] at hp
              have hb : bget board u = value := by simpa using hp.2
              refine ⟨c, List.mem_cons_self _ _, DReach.step c u hcV hp.1 hb ?_⟩
              exact DReach.mono board value goal V (insert c V)
                (Finset.subset_insert c V) u hdr
            · exact ⟨u, List.mem_cons_of_mem _ hr,
                DReach.mono board value goal V (insert c V)
                  (Finset.subset_insert c V) u hdr⟩
          · rintro ⟨u, hu, hdr⟩
            rcases List.mem_cons.mp hu with rfl | hu2
            · rcases DReach.insert_split board value goal V u hg u hdr with hin | hout
              · cases hin with
                | found _ hx => exact absurd hx hg
                | step _ n hxV _ _ _ => exact absurd (Finset.mem_insert_self u V) hxV
              · obtain ⟨_, n, hn, hb, hdrn⟩ := hout
                refine ⟨n, List.mem_append.mpr (Or.inl ?_), hdrn⟩
                rw [List.mem_reverse, List.mem_filter]
                exact ⟨hn, by simpa using hb⟩
            · rcases DReach.insert_split board value goal V c hg u hdr with hin | hout
              · exact ⟨u, List.mem_append.mpr (Or.inr hu2), hin⟩
              · obtain ⟨_, n, hn, hb, hdrn⟩ := hout
                refine ⟨n, List.mem_append.mpr (Or.inl ?_), hdrn⟩
                rw [List.mem_reverse, List.mem_filter]
                exact ⟨hn, by simpa using hb⟩

theorem DReach_empty_iff (board : Board) (value : Int) (goal : List Nat) (c : Nat) :
    DReach board value goal ∅ c ↔
      ∃ x ∈ goal, Relation.ReflTransGen
        (fun a b2 => b2 ∈ get_neighbors a ∧ bget board b2 = value) c x := by
  constructor
  · intro h
    induction h with
    | found x hx => exact ⟨x, hx, Relation.ReflTransGen.refl⟩
    | step x n _ hn hb _ ih =>
      obtain ⟨g2, hg2, hrtg⟩ := ih
      exact ⟨g2, hg2, Relation.ReflTransGen.head ⟨hn, hb⟩ hrtg⟩
  · rintro ⟨x, hx, hrtg⟩
    induction hrtg using Relation.ReflTransGen.head_induction_on with
    | refl => exact DReach.found x hx
    | head hab _ ih =>
      exact DReach.step _ _ (Finset.not_mem_empty _) hab.1 hab.2 ih

theorem winner_start_bounds (board : Board) (p : Int) :
    (∀ u ∈ winner_start board p, u < SIZE * SIZE) ∧
      (winner_start board p).length ≤ SIZE := by
  unfold winner_start
  split
  · constructor
    · intro u hu
      have := (List.mem_filter.mp hu).1
      rw [List.mem_range] at this
      simp only [SIZE] at *
      omega
    · exact Nat.le_trans (List.length_filter_le _ _) (by simp)
  · constructor
    · intro u hu
      have := (List.mem_filter.mp hu).1
      simp only [List.mem_map, List.mem_range] at this
      obtain ⟨r, hr, rfl⟩ := this
      simp only [SIZE] at *
      omega
    · exact Nat.le_trans (List.length_filter_le _ _) (by simp)

/-- The spec-side connectivity property: some owned start-edge cell is
joined to some owned goal-edge cell by a path under the fixed 6-direction
hex adjacency running through cells owned by `player`. -/
def Connected (board : Board) (player : Int) : Prop :=
  ∃ s ∈ winner_start board player, ∃ g ∈ winner_goal board player,
    Relation.ReflTransGen
      (fun a b2 => b2 ∈ get_neighbors a ∧ bget board b2 = winner_value player) s g

/-- Test board: player -1 owns cells 0,1,2 of row 0 only (chain stops at
column 2, short of the right edge). -/
def bRow0short : Board := [-1,-1,-1,0, 0,0,0,0, 0,0,0,0, 0,0,0,0]

/-- C7.  `check_winner board player` is true exactly when `player`'s
stones form a connected path under the fixed 6-direction hex adjacency
from the player's start edge to their goal edge (top-bottom for player 1,
left-right for player -1); concretely, on the 4x4 board where player -1
owns exactly cells 0,1,2,3 of row 0 it returns true, and where player -1
owns exactly cells 0,1,2 it returns false. -/
theorem check_winner_iff_connected :
    (∀ (board : Board) (player : Int),
      check_winner board player = true ↔ Connected board player) ∧
    check_winner bRow0 (-1) = true ∧ check_winner bRow0short (-1) = false := by
  refine ⟨?_, by decide, by decide⟩
  intro board player
  unfold check_winner
  have hb := winner_start_bounds board player
  rw [winnerLoop_iff board (winner_value player) (winner_goal board player)
    DFS_FUEL ∅ _ ?bnd ?meas]
  case bnd =>
    intro u hu
    rw [List.mem_reverse] at hu
    exact hb.1 u hu
  case meas =>
    rw [List.length_reverse, Finset.sdiff_empty, Finset.card_range]
    have := hb.2
    simp only [SIZE, DFS_FUEL] at *
    omega
  unfold Connected
  constructor
  · rintro ⟨u, hu, hdr⟩
    rw [List.mem_reverse] at hu
    obtain ⟨g2, hg2, hrtg⟩ := (DReach_empty_iff board _ _ u).mp hdr
    exact ⟨u, hu, g2, hg2, hrtg⟩
  · rintro ⟨s, hs, g2, hg2, hrtg⟩
    refine ⟨s, List.mem_reverse.mpr hs, ?_⟩
    exact (DReach_empty_iff board _ _ s).mpr ⟨g2, hg2, hrtg⟩

/-! ### C5: XInt order lemmas -/

theorem XInt.negx_negx (a : XInt) : a.negx.negx = a := by
  cases a <;> simp [XInt.negx]

theorem XInt.ble_refl (a : XInt) : XInt.ble a a = true := by
  cases a <;> simp [XInt.ble]

theorem XInt.ble_trans (a b c : XInt) (h1 : XInt.ble a b = true)
    (h2 : XInt.ble b c = true) : XInt.ble a c = true := by
  cases a <;> cases b <;> cases c <;> simp [XInt.ble] at * <;> omega

theorem XInt.ble_negx_of_ble (a b : XInt) (h : XInt.ble a b = true) :
    XInt.ble b.negx a.negx = true := by
  cases a <;> cases b <;> simp [XInt.ble, XInt.negx] at * <;> omega

theorem XInt.ble_total (a b : XInt) :
    XInt.ble a b = true ∨ XInt.ble b a = true := by
  cases a <;> cases b <;> simp [XInt.ble] <;> omega

theorem XInt.blt_eq_false_of_ble (a b : XInt) (h : XInt.ble b a = true) :
    XInt.blt a b = false := by
  simp [XInt.blt, h]

theorem XInt.ble_of_blt (a b : XInt) (h : XInt.blt a b = true) :
    XInt.ble a b = true := by
  simp only [XInt.blt, Bool.not_eq_true'] at h
  rcases XInt.ble_total a b with h2 | h2
  · exact h2
  · rw [h] at h2; exact absurd h2 (by simp)

theorem ble_xmax_left (a b : XInt) : XInt.ble a (xmax a b) = true := by
  unfold xmax
  split
  · next h => exact XInt.ble_of_blt a b h
  · exact XInt.ble_refl a

theorem ble_xmax_right (a b : XInt) : XInt.ble b (xmax a b) = true := by
  unfold xmax
  split
  · exact XInt.ble_refl b
  · next h => simpa [XInt.blt] using h

theorem xmax_eq_left (a b : XInt) (h : XInt.ble b a = true) : xmax a b = a := by
  unfold xmax
  rw [XInt.blt_eq_false_of_ble a b h]
  rfl

theorem ble_posInf_false (x : XInt) (h : x = XInt.negInf ∨ x.isfin = true) :
    XInt.ble XInt.posInf x = false := by
  rcases h with rfl | h
  · rfl
  · obtain ⟨n, rfl⟩ := XInt.isfin_exists x h
    rfl

theorem xmax_fin (a s : XInt) (ha : a = XInt.negInf ∨ a.isfin = true)
    (hs : s.isfin = true) : (xmax a s).isfin = true := by
  unfold xmax
  split
  · exact hs
  · next h =>
    rcases ha with rfl | hfin
    · obtain ⟨n, rfl⟩ := XInt.isfin_exists s hs
      exact absurd (XInt.blt_negInf_fin n) (by simp [h])
    · exact hfin

theorem foldl_xmax_le (l : List XInt) : ∀ a : XInt,
    XInt.ble a (l.foldl xmax a) = true := by
  induction l with
  | nil => intro a; exact XInt.ble_refl a
  | cons s rest ih =>
    intro a
    rw [List.foldl_cons]
    exact XInt.ble_trans _ _ _ (ble_xmax_left a s) (ih (xmax a s))

theorem foldl_xmax_fin (l : List XInt) : ∀ a : XInt,
    (a = XInt.negInf ∨ a.isfin = true) → (∀ s ∈ l, s.isfin = true) →
    (a.isfin = true ∨ l ≠ []) → (l.foldl xmax a).isfin = true := by
  induction l with
  | nil =>
    intro a _ _ h3
    rcases h3 with h | h
    · exact h
    · exact absurd rfl h
  | cons s rest ih =>
    intro a ha hl _
    rw [List.foldl_cons]
    have hfin : (xmax a s).isfin = true :=
      xmax_fin a s ha (hl s (List.mem_cons_self _ _))
    exact ih (xmax a s) (Or.inr hfin) (fun x hx => hl x (List.mem_cons_of_mem _ hx))
      (Or.inl hfin)

/-! ### C5: cache relation between the pruned and full-width runs -/

theorem cacheFind_eq_none_iff (c : Cache) (k : CKey) :
    cacheFind c k = none ↔ k ∉ c.map Prod.fst := by
  induction c with
  | nil => simp [cacheFind]
  | cons e rest ih =>
    rw [cacheFind_cons]
    by_cases h : e.1 = k
    · simp [h]
    · simp [h, ih, Ne.symm h]

/-- Relation between the pruned run's cache and the full-width run's
cache during the depth-2 root loop: same keys in the same order, and a
stored pruned value is a lower bound of the stored full-width value whose
negation is at most the current root alpha (both stored scores finite). -/
def CacheRel (alpha : XInt) (cP cF : Cache) : Prop :=
  cP.map Prod.fst = cF.map Prod.fst ∧
  ∀ k vP, cacheFind cP k = some vP → ∃ vF, cacheFind cF k = some vF ∧
    vP.1.isfin = true ∧ vF.1.isfin = true ∧
    XInt.ble vP.1 vF.1 = true ∧ XInt.ble (XInt.negx vP.1) alpha = true

theorem cacheRel_nil (alpha : XInt) : CacheRel alpha [] [] := by
  refine ⟨rfl, fun k vP h => absurd h (by simp [cacheFind])⟩

theorem cacheRel_mono (alpha alpha' : XInt) (cP cF : Cache)
    (hle : XInt.ble alpha alpha' = true) (h : CacheRel alpha cP cF) :
    CacheRel alpha' cP cF := by
  refine ⟨h.1, fun k vP hf => ?_⟩
  obtain ⟨vF, hvF, h1, h2, h3, h4⟩ := h.2 k vP hf
  exact ⟨vF, hvF, h1, h2, h3, XInt.ble_trans _ _ _ h4 hle⟩

theorem cacheRel_wf (alpha : XInt) (cP cF : Cache) (h : CacheRel alpha cP cF) :
    CacheWF cP := by
  intro k v hf
  obtain ⟨vF, _, h1, _, _, _⟩ := h.2 k v hf
  exact h1

theorem cacheRel_none (alpha : XInt) (cP cF : Cache) (h : CacheRel alpha cP cF)
    (k : CKey) (hn : cacheFind cP k = none) : cacheFind cF k = none := by
  rw [cacheFind_eq_none_iff] at hn ⊢
  rwa [← h.1]

theorem cacheRel_cons (alpha alpha' : XInt) (cP cF : Cache) (k : CKey)
    (vP vF : CVal) (h : CacheRel alpha cP cF)
    (hle : XInt.ble alpha alpha' = true)
    (h1 : vP.1.isfin = true) (h2 : vF.1.isfin = true)
    (h3 : XInt.ble vP.1 vF.1 = true)
    (h4 : XInt.ble (XInt.negx vP.1) alpha' = true) :
    CacheRel alpha' ((k, vP) :: cP) ((k, vF) :: cF) := by
  constructor
  · simp [h.1]
  · intro k2 v2 hf
    rw [cacheFind_cons] at hf
    split at hf
    · cases hf
      refine ⟨vF, ?_, h1, h2, h3, h4⟩
      rw [cacheFind_cons, if_pos (by assumption)]
    · obtain ⟨vF2, hvF2, g1, g2, g3, g4⟩ := (cacheRel_mono alpha alpha' cP cF hle h).2 k2 v2 hf
      refine ⟨vF2, ?_, g1, g2, g3, g4⟩
      rw [cacheFind_cons, if_neg (by assumption)]
      exact hvF2

/-! ### C5: depth-0 calls are pure leaf evaluations -/

/-- The value a depth-0 `negamax` call returns: the terminal sentinel if
the opponent has won, 0 on a full board, the evaluator otherwise. -/
def leafVal (board : Board) (p : Int) : Int :=
  if check_winner board (-p) then -999999
  else if valid_actions board = [] then 0
  else evaluate_board board p

theorem negamax_zero_eq (zob : Nat → Nat × Nat) (board : Board)
    (alpha beta : XInt) (p : Int) (cache : Cache) :
    negamax zob board 0 alpha beta p cache =
      ((XInt.fin (leafVal board p), none), board, cache) := by
  unfold leafVal
  by_cases hw : check_winner board (-p) = true
  · rw [negamax_winner zob board 0 alpha beta p cache hw, if_pos hw]
    norm_num
  · rw [Bool.not_eq_true] at hw
    rw [if_neg (by simp [hw])]
    by_cases hv : valid_actions board = []
    · rw [negamax_draw zob board 0 alpha beta p cache hw hv, if_pos hv]
    · rw [negamax_depth0 zob board alpha beta p cache hw hv, if_neg hv]

theorem negamaxFW_zero_eq (zob : Nat → Nat × Nat) (board : Board)
    (alpha beta : XInt) (p : Int) (cache : Cache) :
    negamaxFW zob board 0 alpha beta p cache =
      ((XInt.fin (leafVal board p), none), board, cache) := by
  unfold leafVal
  by_cases hw : check_winner board (-p) = true
  · rw [negamaxFW_winner zob board 0 alpha beta p cache hw, if_pos hw]
    norm_num
  · rw [Bool.not_eq_true] at hw
    rw [if_neg (by simp [hw])]
    by_cases hv : valid_actions board = []
    · rw [negamaxFW_draw zob board 0 alpha beta p cache hw hv, if_pos hv]
    · rw [negamaxFW_depth0 zob board alpha beta p cache hw hv, if_neg hv]

/-! ### C5: the loops below a pure (depth-0) child -/

theorem negamaxLoopFW_pure (child : Board → XInt → XInt → Cache → CVal × Board × Cache)
    (sc : Board → Int)
    (hpure : ∀ b a bb c, child b a bb c = ((XInt.fin (sc b), none), b, c)) (q : Int) :
    ∀ (actions : List Nat) (best : XInt) (mv : Option Nat) (alpha beta : XInt)
      (board : Board) (cache : Cache), (∀ a ∈ actions, bget board a = 0) →
      (negamaxLoopFW child q actions best mv alpha beta board cache).1.1 =
        (actions.map (fun a => XInt.negx (XInt.fin (sc (bset board a q))))).foldl
          xmax best ∧
      (negamaxLoopFW child q actions best mv alpha beta board cache).2.1 = board ∧
      (negamaxLoopFW child q actions best mv alpha beta board cache).2.2 = cache := by
  intro actions
  induction actions with
  | nil => intro best mv alpha beta board cache _; exact ⟨rfl, rfl, rfl⟩
  | cons a rest ih =>
    intro best mv alpha beta board cache hemp
    rw [negamaxLoopFW]
    rw [hpure (bset board a q) (XInt.negx beta) (XInt.negx alpha) cache]
    simp only
    rw [bset_bset_restore board a q (hemp a (List.mem_cons_self _ _))]
    rw [List.map_cons, List.foldl_cons]
    have hxm : (if XInt.blt best (XInt.negx (XInt.fin (sc (bset board a q)))) then
        XInt.negx (XInt.fin (sc (bset board a q))) else best) =
        xmax best (XInt.negx (XInt.fin (sc (bset board a q)))) := rfl
    rw [hxm]
    exact ih _ _ _ _ board cache (fun x hx => hemp x (List.mem_cons_of_mem _ hx))

theorem negamaxLoop_pure (child : Board → XInt → XInt → Cache → CVal × Board × Cache)
    (sc : Board → Int)
    (hpure : ∀ b a bb c, child b a bb c = ((XInt.fin (sc b), none), b, c)) (q : Int) :
    ∀ (actions : List Nat) (alpha : XInt) (mv : Option Nat) (beta : XInt)
      (board : Board) (cache : Cache), (∀ a ∈ actions, bget board a = 0) →
      (negamaxLoop child q actions alpha mv alpha beta board cache).2.1 = board ∧
      (negamaxLoop child q actions alpha mv alpha beta board cache).2.2 = cache ∧
      ((negamaxLoop child q actions alpha mv alpha beta board cache).1.1 =
          (actions.map (fun a => XInt.negx (XInt.fin (sc (bset board a q))))).foldl
            xmax alpha ∨
        (XInt.ble beta
            (negamaxLoop child q actions alpha mv alpha beta board cache).1.1 = true ∧
          XInt.ble (negamaxLoop child q actions alpha mv alpha beta board cache).1.1
            ((actions.map (fun a => XInt.negx (XInt.fin (sc (bset board a q))))).foldl
              xmax alpha) = true)) := by
  intro actions
  induction actions with
  | nil => intro alpha mv beta board cache _; exact ⟨rfl, rfl, Or.inl rfl⟩
  | cons a rest ih =>
    intro alpha mv beta board cache hemp
    rw [negamaxLoop]
    rw [hpure (bset board a q) (XInt.negx beta) (XInt.negx alpha) cache]
    simp only
    rw [bset_bset_restore board a q (hemp a (List.mem_cons_self _ _))]
    rw [List.map_cons, List.foldl_cons]
    have hxm : (if XInt.blt alpha (XInt.negx (XInt.fin (sc (bset board a q)))) then
        XInt.negx (XInt.fin (sc (bset board a q))) else alpha) =
        xmax alpha (XInt.negx (XInt.fin (sc (bset board a q)))) := rfl
    rw [hxm]
    split
    · next hbrk =>
      refine ⟨rfl, rfl, Or.inr ⟨hbrk, ?_⟩⟩
      exact foldl_xmax_le _ _
    · exact ih _ _ _ board cache (fun x hx => hemp x (List.mem_cons_of_mem _ hx))

/-! ### C5: comparison of pruned and full-width depth-1 calls -/

theorem child_compare (zob : Nat → Nat × Nat) (q : Int) (b1 : Board)
    (alpha : XInt) (cP cF : Cache) (hrel : CacheRel alpha cP cF)
    (rP rF : CVal × Board × Cache)
    (hP : negamax zob b1 1 XInt.negInf (XInt.negx alpha) q cP = rP)
    (hF : negamaxFW zob b1 1 XInt.negInf (XInt.negx alpha) q cF = rF) :
    rP.2.1 = b1 ∧ rF.2.1 = b1 ∧
    rP.1.1.isfin = true ∧ rF.1.1.isfin = true ∧
    XInt.ble rP.1.1 rF.1.1 = true ∧
    (rP.1.1 = rF.1.1 ∨ XInt.ble (XInt.negx alpha) rP.1.1 = true) ∧
    CacheRel (xmax alpha (XInt.negx rP.1.1)) rP.2.2 rF.2.2 := by
  subst hP
  subst hF
  by_cases hw : check_winner b1 (-q) = true
  · rw [negamax_winner zob b1 1 XInt.negInf (XInt.negx alpha) q cP hw,
      negamaxFW_winner zob b1 1 XInt.negInf (XInt.negx alpha) q cF hw]
    exact ⟨rfl, rfl, rfl, rfl, XInt.ble_refl _, Or.inl rfl,
      cacheRel_mono _ _ _ _ (ble_xmax_left _ _) hrel⟩
  · rw [Bool.not_eq_true] at hw
    by_cases hv : valid_actions b1 = []
    · rw [negamax_draw zob b1 1 XInt.negInf (XInt.negx alpha) q cP hw hv,
        negamaxFW_draw zob b1 1 XInt.negInf (XInt.negx alpha) q cF hw hv]
      exact ⟨rfl, rfl, rfl, rfl, XInt.ble_refl _, Or.inl rfl,
        cacheRel_mono _ _ _ _ (ble_xmax_left _ _) hrel⟩
    · cases hfind : cacheFind cP (compute_zobrist_hash zob b1, q, 0 + 1) with
      | some vP =>
        obtain ⟨vF, hvF, hfin1, hfin2, hble, hbnd⟩ := hrel.2 _ vP hfind
        rw [negamax_hit zob b1 0 XInt.negInf (XInt.negx alpha) q cP vP hw hv hfind,
          negamaxFW_hit zob b1 0 XInt.negInf (XInt.negx alpha) q cF vF hw hv hvF]
        refine ⟨rfl, rfl, hfin1, hfin2, hble, Or.inr ?_, 
          cacheRel_mono _ _ _ _ (ble_xmax_left _ _) hrel⟩
        have h2 := XInt.ble_negx_of_ble _ _ hbnd
        rwa [XInt.negx_negx] at h2
      | none =>
        have hfindF := cacheRel_none alpha cP cF hrel _ hfind
        rw [negamax_miss zob b1 0 XInt.negInf (XInt.negx alpha) q cP hw hv hfind,
          negamaxFW_miss zob b1 0 XInt.negInf (XInt.negx alpha) q cF hw hv hfindF]
        simp only
        have hom2 : (order_moves b1 (valid_actions b1) q).2 = b1 :=
          order_moves_board b1 _ q (fun a ha => (valid_actions_mem b1 a ha).2)
        rw [hom2]
        have hemp : ∀ a ∈ (order_moves b1 (valid_actions b1) q).1, bget b1 a = 0 :=
          fun a ha => (valid_actions_mem b1 a (order_moves_mem b1 _ q a ha)).2
        have hpureP : ∀ (b : Board) (a bb : XInt) (c : Cache),
            (fun b a bb c => negamax zob b 0 a bb (-q) c) b a bb c =
              ((XInt.fin (leafVal b (-q)), none), b, c) :=
          fun b a bb c => negamax_zero_eq zob b a bb (-q) c
        have hpureF : ∀ (b : Board) (a bb : XInt) (c : Cache),
            (fun b a bb c => negamaxFW zob b 0 a bb (-q) c) b a bb c =
              ((XInt.fin (leafVal b (-q)), none), b, c) :=
          fun b a bb c => negamaxFW_zero_eq zob b a bb (-q) c
        have hloopP := negamaxLoop_pure _ (fun b => leafVal b (-q)) hpureP q
          (order_moves b1 (valid_actions b1) q).1 XInt.negInf none
          (XInt.negx alpha) b1 cP hemp
        have hloopF := negamaxLoopFW_pure _ (fun b => leafVal b (-q)) hpureF q
          (order_moves b1 (valid_actions b1) q).1 XInt.negInf none XInt.negInf
          (XInt.negx alpha) b1 cF hemp
        have hfinsc : ∀ s ∈ (order_moves b1 (valid_actions b1) q).1.map
            (fun a => XInt.negx (XInt.fin (leafVal (bset b1 a q) (-q)))),
            s.isfin = true := by
          intro s hs
          simp only [List.mem_map] at hs
          obtain ⟨a, _, rfl⟩ := hs
          rfl
        have hne : (order_moves b1 (valid_actions b1) q).1.map
            (fun a => XInt.negx (XInt.fin (leafVal (bset b1 a q) (-q)))) ≠ [] := by
          intro hx
          exact order_moves_ne_nil b1 _ q hv (List.map_eq_nil_iff.mp hx)
        have hvF_fin : (List.foldl xmax XInt.negInf
            ((order_moves b1 (valid_actions b1) q).1.map
              (fun a => XInt.negx (XInt.fin (leafVal (bset b1 a q) (-q)))))).isfin = true :=
          foldl_xmax_fin _ XInt.negInf (Or.inl rfl) hfinsc (Or.inr hne)
        have hvP_fin := (negamaxLoop_fin
          (fun b a bb c => negamax zob b 0 a bb (-q) c)
          (fun b a bb c hcw =>
            ⟨by simp only [negamax_zero_eq]; rfl, by simp only [negamax_zero_eq]; exact hcw⟩) q
          (order_moves b1 (valid_actions b1) q).1 XInt.negInf none XInt.negInf
          (XInt.negx alpha) b1 cP (cacheRel_wf alpha cP cF hrel) (Or.inl rfl)).2
          (Or.inr (order_moves_ne_nil b1 _ q hv))
        refine ⟨?_, ?_, hvP_fin, ?_, ?_, ?_, ?_⟩
        · exact hloopP.1
        · exact hloopF.2.1
        · rw [hloopF.1]; exact hvF_fin
        · rcases hloopP.2.2 with hexact | ⟨_, hble2⟩
          · rw [hexact, hloopF.1]; exact XInt.ble_refl _
          · rw [hloopF.1]; exact hble2
        · rcases hloopP.2.2 with hexact | ⟨hbrk, _⟩
          · exact Or.inl (by rw [hexact, hloopF.1])
          · exact Or.inr hbrk
        · rw [hloopP.2.1, hloopF.2.2]
          refine cacheRel_cons alpha _ cP cF _ _ _ hrel (ble_xmax_left _ _)
            hvP_fin ?_ ?_ (ble_xmax_right _ _)
          · rw [hloopF.1]; exact hvF_fin
          · rcases hloopP.2.2 with hexact | ⟨_, hble2⟩
            · rw [hexact, hloopF.1]; exact XInt.ble_refl _
            · rw [hloopF.1]; exact hble2

/-! ### C5: the depth-2 root loop gives equal best scores -/

theorem root_loop_compare
    (childP childF : Board → XInt → XInt → Cache → CVal × Board × Cache) (p : Int)
    (hcc : ∀ (b1 : Board) (alpha : XInt) (cP cF : Cache), CacheRel alpha cP cF →
      ∀ rP rF, childP b1 XInt.negInf (XInt.negx alpha) cP = rP →
        childF b1 XInt.negInf (XInt.negx alpha) cF = rF →
        rP.2.1 = b1 ∧ rF.2.1 = b1 ∧ rP.1.1.isfin = true ∧ rF.1.1.isfin = true ∧
        XInt.ble rP.1.1 rF.1.1 = true ∧
        (rP.1.1 = rF.1.1 ∨ XInt.ble (XInt.negx alpha) rP.1.1 = true) ∧
        CacheRel (xmax alpha (XInt.negx rP.1.1)) rP.2.2 rF.2.2) :
    ∀ (actions : List Nat) (alpha : XInt) (mvP mvF : Option Nat) (B : Board)
      (cP cF : Cache), (∀ a ∈ actions, bget B a = 0) → CacheRel alpha cP cF →
      (alpha = XInt.negInf ∨ alpha.isfin = true) →
      (negamaxLoop childP p actions alpha mvP alpha XInt.posInf B cP).1.1 =
        (negamaxLoopFW childF p actions alpha mvF alpha XInt.posInf B cF).1.1 := by
  intro actions
  induction actions with
  | nil => intro alpha mvP mvF B cP cF _ _ _; rfl
  | cons a rest ih =>
    intro alpha mvP mvF B cP cF hemp hrel halpha
    rw [negamaxLoop, negamaxLoopFW]
    have hpn : XInt.negx XInt.posInf = XInt.negInf := rfl
    simp only [hpn]
    obtain ⟨hbP, hbF, hfinP, hfinF, hble, hdisj, hrel2⟩ :=
      hcc (bset B a p) alpha cP cF hrel _ _ rfl rfl
    rw [hbP, hbF, bset_bset_restore B a p (hemp a (List.mem_cons_self _ _))]
    have hemp2 : ∀ x ∈ rest, bget B x = 0 :=
      fun x hx => hemp x (List.mem_cons_of_mem _ hx)
    have hsPfin : (XInt.negx (childP (bset B a p) XInt.negInf (XInt.negx alpha) cP).1.1).isfin
        = true := by rw [XInt.isfin_negx]; exact hfinP
    rcases hdisj with heq | hbrk
    · rw [← heq]
      have halpha2 : (xmax alpha (XInt.negx
          (childP (bset B a p) XInt.negInf (XInt.negx alpha) cP).1.1)).isfin = true :=
        xmax_fin _ _ halpha hsPfin
      have hnb : XInt.ble XInt.posInf (xmax alpha (XInt.negx
          (childP (bset B a p) XInt.negInf (XInt.negx alpha) cP).1.1)) = false :=
        ble_posInf_false _ (Or.inr halpha2)
      rw [if_neg (by simp [hnb])]
      have hxm : (if XInt.blt alpha (XInt.negx
          (childP (bset B a p) XInt.negInf (XInt.negx alpha) cP).1.1) then
            XInt.negx (childP (bset B a p) XInt.negInf (XInt.negx alpha) cP).1.1
          else alpha) =
          xmax alpha (XInt.negx (childP (bset B a p) XInt.negInf (XInt.negx alpha) cP).1.1)
        := rfl
      rw [hxm]
      exact ih _ _ _ B _ _ hemp2 hrel2 (Or.inr halpha2)
    · have hsPle : XInt.ble (XInt.negx
          (childP (bset B a p) XInt.negInf (XInt.negx alpha) cP).1.1) alpha = true := by
        have h2 := XInt.ble_negx_of_ble _ _ hbrk
        rwa [XInt.negx_negx] at h2
      have hsFle : XInt.ble (XInt.negx
          (childF (bset B a p) XInt.negInf (XInt.negx alpha) cF).1.1) alpha = true :=
        XInt.ble_trans _ _ _ (XInt.ble_negx_of_ble _ _ hble) hsPle
      have h1 : xmax alpha (XInt.negx
          (childP (bset B a p) XInt.negInf (XInt.negx alpha) cP).1.1) = alpha :=
        xmax_eq_left _ _ hsPle
      have h1F : xmax alpha (XInt.negx
          (childF (bset B a p) XInt.negInf (XInt.negx alpha) cF).1.1) = alpha :=
        xmax_eq_left _ _ hsFle
      have h2 : (if XInt.blt alpha (XInt.negx
          (childP (bset B a p) XInt.negInf (XInt.negx alpha) cP).1.1) then
            XInt.negx (childP (bset B a p) XInt.negInf (XInt.negx alpha) cP).1.1
          else alpha) = alpha := by
        rw [XInt.blt_eq_false_of_ble _ _ hsPle]
        rfl
      have h2F : (if XInt.blt alpha (XInt.negx
          (childF (bset B a p) XInt.negInf (XInt.negx alpha) cF).1.1) then
            XInt.negx (childF (bset B a p) XInt.negInf (XInt.negx alpha) cF).1.1
          else alpha) = alpha := by
        rw [XInt.blt_eq_false_of_ble _ _ hsFle]
        rfl
      rw [h1, h1F, h2, h2F]
      rw [h1] at hrel2
      have hnb : XInt.ble XInt.posInf alpha = false := ble_posInf_false _ halpha
      rw [if_neg (by simp [hnb])]
      exact ih _ _ _ B _ _ hemp2 hrel2 halpha

/-- C5.  Pruning equivalence at the spec's example depth: for every
Zobrist table, board and player, the depth-2 full-window top-level search
with the beta cutoff removed (`negamaxFW`, full-width) computes the same
best score as the pruned search `negamax`; the cutoff changes only how
many nodes are visited, not the resulting score. -/
theorem pruning_equivalence (zob : Nat → Nat × Nat) (board : Board) (p : Int) :
    (negamax zob board 2 XInt.negInf XInt.posInf p []).1.1 =
      (negamaxFW zob board 2 XInt.negInf XInt.posInf p []).1.1 := by
  by_cases hw : check_winner board (-p) = true
  · rw [negamax_winner zob board 2 XInt.negInf XInt.posInf p [] hw,
      negamaxFW_winner zob board 2 XInt.negInf XInt.posInf p [] hw]
  · rw [Bool.not_eq_true] at hw
    by_cases hv : valid_actions board = []
    · rw [negamax_draw zob board 2 XInt.negInf XInt.posInf p [] hw hv,
        negamaxFW_draw zob board 2 XInt.negInf XInt.posInf p [] hw hv]
    · rw [negamax_miss zob board 1 XInt.negInf XInt.posInf p [] hw hv rfl,
        negamaxFW_miss zob board 1 XInt.negInf XInt.posInf p [] hw hv rfl]
      simp only
      have hom2 : (order_moves board (valid_actions board) p).2 = board :=
        order_moves_board board _ p (fun a ha => (valid_actions_mem board a ha).2)
      rw [hom2]
      have hemp : ∀ a ∈ (order_moves board (valid_actions board) p).1, bget board a = 0 :=
        fun a ha => (valid_actions_mem board a (order_moves_mem board _ p a ha)).2
      exact root_loop_compare (fun b a bb c => negamax zob b 1 a bb (-p) c)
        (fun b a bb c => negamaxFW zob b 1 a bb (-p) c) p
        (fun b1 alpha cP cF hrel rP rF hP hF =>
          child_compare zob (-p) b1 alpha cP cF hrel rP rF hP hF)
        (order_moves board (valid_actions board) p).1 XInt.negInf none none board
        [] [] hemp (cacheRel_nil XInt.negInf) (Or.inl rfl)
